import Mathlib

/-!
# Verification of the multi-floor pathfinding core (`src/lib/pathfinding.ts`)

A shallow embedding of the TypeScript pathfinding module: floor-schema
normalization, multi-floor graph assembly, Dijkstra shortest paths, and the
room-query layer.  JavaScript `Map`s are modelled as insertion-ordered
association lists (`JMap`), JavaScript numbers carrying graph distances as
rationals, and the `Infinity` sentinel used by the Dijkstra tentative-distance
table as `WithTop ℤ` (graph distances are whole numbers throughout the module).  The floor-data JSON files imported by the module are not
part of the embedded source; every definition is therefore parametrised by the
per-floor raw node/edge collections, and theorems quantify over that data
(adding, where needed, the data-model invariants stated by the specification,
e.g. non-negative edge distances).
-/

/-- Tentative distances: a JavaScript number that may be `Infinity`. -/
abbrev JDist : Type := WithTop ℤ

/-! ## JavaScript `Map` / `Set` as insertion-ordered association lists -/

/-- A JavaScript `Map`, modelled as an association list in insertion order. -/
abbrev JMap (α β : Type) : Type := List (α × β)

/-- `map.get(k)` — the value stored at the first (and, for maps built with
`jset`, only) occurrence of `k`; `none` models `undefined`. -/
def jget {α β : Type} [DecidableEq α] : JMap α β → α → Option β
  | [], _ => none
  | (k', v) :: rest, k => if k' = k then some v else jget rest k

/-- `map.set(k, v)` — overwrite in place if the key is present (JS `Map.set`
keeps the original insertion position), otherwise append. -/
def jset {α β : Type} [DecidableEq α] : JMap α β → α → β → JMap α β
  | [], k, v => [(k, v)]
  | (k', v') :: rest, k, v =>
      if k' = k then (k, v) :: rest else (k', v') :: jset rest k v

/-- `map.has(k)`. -/
def jhas {α β : Type} [DecidableEq α] (m : JMap α β) (k : α) : Bool :=
  (jget m k).isSome

/-- `set.add(x)` for a JavaScript `Set` (insertion order, no duplicates). -/
def jsAdd {α : Type} [DecidableEq α] (l : List α) (x : α) : List α :=
  if x ∈ l then l else l ++ [x]

/-- Two-level lookup `adjacency.get(a)?.get(b)`. -/
def jget2 (adj : JMap String (JMap String ℤ)) (a b : String) : Option ℤ :=
  (jget adj a).bind fun m => jget m b

/-! ## JavaScript string helpers -/

/-- JavaScript's `\s` character class (whitespace as used by `String.prototype
.split` with a `\s` regex and by `String.prototype.trim`). -/
def isJsWs (c : Char) : Bool :=
  c = ' ' || c = '\t' || c = '\n' || c = '\r' ||
  c = Char.ofNat 0x0B || c = Char.ofNat 0x0C || c = Char.ofNat 0xA0 ||
  c = Char.ofNat 0x1680 ||
  (Char.ofNat 0x2000 ≤ c && c ≤ Char.ofNat 0x200A) ||
  c = Char.ofNat 0x2028 || c = Char.ofNat 0x2029 || c = Char.ofNat 0x202F ||
  c = Char.ofNat 0x205F || c = Char.ofNat 0x3000 || c = Char.ofNat 0xFEFF

/-- `String.prototype.trim`, on a character list. -/
def jsTrimList (l : List Char) : List Char :=
  ((l.dropWhile isJsWs).reverse.dropWhile isJsWs).reverse

/-- `String.prototype.trim`. -/
def jsTrim (s : String) : String :=
  String.mk (jsTrimList s.toList)

/-- Length of the leading run of JS whitespace characters. -/
def wsRun : List Char → Nat
  | [] => 0
  | c :: rest => if isJsWs c then wsRun rest + 1 else 0

/-- Length of the match, if any, of the regular expression
`[\n]|(?:\s+-\s+)` at the head of `l`.  The first alternative is preferred
(regex alternation order); the second matches a maximal whitespace run, a
dash, and a maximal whitespace run (greedy `\s+` with the dash immediately
after the run — shorter backtracks end at a whitespace character, never a
dash, so maximality is equivalent to the backtracking semantics). -/
def sepMatch (l : List Char) : Option Nat :=
  match l with
  | [] => none
  | c :: _ =>
    if c = '\n' then some 1
    else
      let w1 := wsRun l
      if w1 ≥ 1 ∧ l.get? w1 = some '-' ∧
          (l.get? (w1 + 1)).any isJsWs then
        some (w1 + 1 + wsRun (l.drop (w1 + 1)))
      else none

/-- `label.split(/[\n]|(?:\s+-\s+)/)` on a character list: scan left to
right; at the leftmost separator match, emit the accumulated segment and
continue after the match.  A separator match consumes at least one
character, so fuel `l.length` makes the fuel case unreachable (it is given
a harmless default). -/
def jsSplitGoF : Nat → List Char → List Char → List String
  | _, [], acc => [String.mk acc.reverse]
  | 0, l, acc => [String.mk (acc.reverse ++ l)]
  | Nat.succ fuel, c :: rest, acc =>
    match sepMatch (c :: rest) with
    | some n => String.mk acc.reverse :: jsSplitGoF fuel ((c :: rest).drop n) []
    | none => jsSplitGoF fuel rest (c :: acc)

/-- `label.split(/[\n]|(?:\s+-\s+)/)`. -/
def jsSplit (s : String) : List String :=
  jsSplitGoF s.toList.length s.toList []

/-- `a.includes(b)` — substring containment. -/
def jsIncludes (s sub : String) : Bool :=
  decide (sub.toList <:+: s.toList)

/-- ASCII lower-casing of one character (the restriction of JavaScript
`toLowerCase` to the ASCII identifiers in scope). -/
def lcChar (c : Char) : Char :=
  if 65 ≤ c.toNat ∧ c.toNat ≤ 90 then Char.ofNat (c.toNat + 32) else c

/-- ASCII upper-casing of one character. -/
def ucChar (c : Char) : Char :=
  if 97 ≤ c.toNat ∧ c.toNat ≤ 122 then Char.ofNat (c.toNat - 32) else c

/-- `s.toLowerCase()` (ASCII-faithful; all node identifiers and queries in
scope are ASCII). -/
def jsLower (s : String) : String :=
  String.mk (s.toList.map lcChar)

/-- `s.toUpperCase()` (ASCII-faithful). -/
def jsUpper (s : String) : String :=
  String.mk (s.toList.map ucChar)

/-- `label.indexOf(" ")` — index of the first space, `none` for `-1`. -/
def jsIndexOfSpace (s : String) : Option Nat :=
  s.toList.indexOf? ' '

/-- `s.substring(i)` — the suffix starting at character index `i`. -/
def jsSubstringFrom (s : String) (i : Nat) : String :=
  String.mk (s.toList.drop i)

/-- Lexicographic comparison of character lists by code point. -/
def charListLe : List Char → List Char → Bool
  | [], _ => true
  | _ :: _, [] => false
  | a :: as, b :: bs =>
      if a.toNat < b.toNat then true
      else if b.toNat < a.toNat then false
      else charListLe as bs

/-- Lexicographic `≤` on strings by code point, matching the default
JavaScript `Array.prototype.sort()` comparator on the (ASCII) strings in
scope. -/
def strLe (a b : String) : Bool :=
  charListLe a.toList b.toList

/-- Insertion into a sorted list, used to model `Array.prototype.sort()`.
The lists sorted by the embedded code are duplicate-free, so any correct
comparison sort produces the same output as the JS engine's sort. -/
def insertSorted (x : String) : List String → List String
  | [] => [x]
  | y :: rest => if strLe x y then x :: y :: rest else y :: insertSorted x rest

/-- `arr.sort()` with the default (lexicographic) comparator. -/
def sortStr (l : List String) : List String :=
  l.foldr insertSorted []

/-! ## Data model (`src/lib/pathfinding.ts`, Types section) -/

/-- A raw node record from a floor-data JSON file.  Optional fields model
JSON fields that may be absent (`undefined`). -/
structure RawNode where
  id : String
  name : Option String := none
  label_raw : Option String := none
  label : Option String := none
  room_type : Option String := none
  area_m2 : Option ℚ := none
deriving DecidableEq, Repr

/-- A raw edge record from a floor-data JSON file. -/
structure RawEdge where
  source : String
  target : String
  bidirectional : Option Bool := none
  distance_m : Option ℤ := none
deriving DecidableEq, Repr

/-- `NormalizedNode`. -/
structure NormalizedNode where
  id : String
  name : String
  roomType : String
  area : Option ℚ
  floor : String
  floorLabel : String
deriving DecidableEq, Repr

/-- `NormalizedEdge`. -/
structure NormalizedEdge where
  source : String
  target : String
  bidirectional : Bool
  distance : ℤ
deriving DecidableEq, Repr

/-- `NodeInfo`. -/
structure NodeInfo where
  id : String
  roomType : String
  area : Option ℚ
  floor : String
  floorLabel : String
deriving DecidableEq, Repr

/-- `NavigationStep`.  The source fields `from`/`to` are Lean keywords and
are embedded as `fromId`/`toId`. -/
structure NavigationStep where
  fromId : String
  fromType : String
  fromFloor : String
  toId : String
  toType : String
  toFloor : String
  distance : ℤ
  isFloorChange : Bool
deriving DecidableEq, Repr

/-- `PathResult`.  `totalDistance` is a JavaScript number that can in
principle be `Infinity`, hence `JDist`. -/
structure PathResult where
  found : Bool
  path : List String
  pathDetails : List NodeInfo
  totalDistance : JDist
  steps : List NavigationStep
  crossesFloors : Bool
  floorsTraversed : List String
deriving DecidableEq, Repr

/-- The raw graph description of one floor (`floorInfo.data.graph`). -/
structure FloorData where
  nodes : List RawNode
  edges : List RawEdge
deriving DecidableEq, Repr

/-- `FloorInfo`.  The source field `prefix` is a Lean keyword and is
embedded as `pfx`. -/
structure FloorInfo where
  id : String
  floorNum : String
  label : String
  pfx : String
  data : FloorData
deriving DecidableEq, Repr

/-- The `FLOORS` table: fixed metadata from the source, with the imported
per-floor JSON data supplied as parameters. -/
def mkFloors (d0 d1 d2 d3 d4 d5 : FloorData) : List FloorInfo :=
  [ ⟨"A00", "0", "Ground Floor (EG)", "0", d0⟩,
    ⟨"A01", "1", "Floor 1 (OG1)",     "1", d1⟩,
    ⟨"A02", "2", "Floor 2 (OG2)",     "2", d2⟩,
    ⟨"A03", "3", "Floor 3 (OG3)",     "3", d3⟩,
    ⟨"4",   "4", "Floor 4 (OG4)",     "4", d4⟩,
    ⟨"5",   "5", "Floor 5 (OG5)",     "5", d5⟩ ]

/-! ## Floor schema normalizer (`normalizeNodes` / `normalizeEdges`) -/

/-- The name-derivation chain inside `normalizeNodes`:
`let name = n.name || ""`, then the `label_raw` split branch, then the
`label` first-space branch.  JavaScript truthiness on strings (`""` is
falsy) is modelled by comparison with the empty string. -/
def deriveName (n : RawNode) : String :=
  let name1 := n.name.getD ""
  let name2 :=
    if name1 = "" ∧ n.label_raw.getD "" ≠ "" then
      let parts := jsSplit (n.label_raw.getD "")
      if parts.length > 1 then jsTrim (parts.getD 1 "")
      else jsTrim (parts.getD 0 "")
    else name1
  if name2 = "" ∧ n.label.getD "" ≠ "" then
    let lbl := n.label.getD ""
    match jsIndexOfSpace lbl with
    | some i => jsTrim (jsSubstringFrom lbl (i + 1))
    | none => lbl
  else name2

/-- `normalizeNodes(floorInfo)`. -/
def normalizeNodes (floorInfo : FloorInfo) : List NormalizedNode :=
  floorInfo.data.nodes.map fun n =>
    { id := n.id
      name := deriveName n
      roomType := if n.room_type.getD "" = "" then "Unknown" else n.room_type.getD ""
      area := n.area_m2
      floor := floorInfo.floorNum
      floorLabel := floorInfo.label }

/-- `normalizeEdges(floorInfo)`: `bidirectional` defaults to `true` unless
the raw field is literally `false` (`e.bidirectional !== false`), and
`distance` defaults to `10` (`e.distance_m ?? 10`). -/
def normalizeEdges (floorInfo : FloorInfo) : List NormalizedEdge :=
  floorInfo.data.edges.map fun e =>
    { source := e.source
      target := e.target
      bidirectional := if e.bidirectional = some false then false else true
      distance := e.distance_m.getD 10 }

/-! ## Graph assembly (`buildInterFloorEdges` / `initializeGraph`) -/

def STAIRWELL_SUFFIXES : List String := ["K041", "K121", "K191", "K262"]

def LIFT_VESTIBULE_SUFFIXES : List String := ["K042", "K122", "K192", "K271"]

def STAIR_FLOOR_CHANGE_DISTANCE : ℤ := 15

def LIFT_FLOOR_CHANGE_DISTANCE : ℤ := 10

/-- The module-level mutable graph state (`allNodes`, `nodeMap`,
`adjacency`), threaded explicitly. -/
structure GraphState where
  allNodes : List NormalizedNode
  nodeMap : JMap String NormalizedNode
  adjacency : JMap String (JMap String ℤ)
deriving DecidableEq, Repr

/-- Consecutive pairs of the sorted floor-ordering list (the
`for (let i = 0; i < floorPrefixes.length - 1; i++)` loop). -/
def adjacentPairs : List String → List (String × String)
  | a :: b :: rest => (a, b) :: adjacentPairs (b :: rest)
  | _ => []

/-- One suffix family's inner loop of `buildInterFloorEdges`: for each
vertical-circulation suffix, if both the lower- and upper-prefixed nodes
exist, emit the bidirectional synthetic edge with the family's fixed
distance. -/
def interEdgesFor (nm : JMap String NormalizedNode) (lower upper : String)
    (suffixes : List String) (d : ℤ) : List NormalizedEdge :=
  suffixes.filterMap fun sfx =>
    let lowerNodeId := lower ++ sfx
    let upperNodeId := upper ++ sfx
    if jhas nm lowerNodeId ∧ jhas nm upperNodeId then
      some ⟨lowerNodeId, upperNodeId, true, d⟩
    else none

/-- `buildInterFloorEdges()`, reading the node table built in phase 1. -/
def buildInterFloorEdges (floors : List FloorInfo)
    (nm : JMap String NormalizedNode) : List NormalizedEdge :=
  (adjacentPairs (sortStr (floors.map (·.pfx)))).bind fun pr =>
    interEdgesFor nm pr.1 pr.2 STAIRWELL_SUFFIXES STAIR_FLOOR_CHANGE_DISTANCE ++
    interEdgesFor nm pr.1 pr.2 LIFT_VESTIBULE_SUFFIXES LIFT_FLOOR_CHANGE_DISTANCE

/-- Phase 1 of `initializeGraph`: register one normalized node
(`allNodes.push`, `nodeMap.set`, `adjacency.set(id, new Map())`). -/
def registerNode (gs : GraphState) (n : NormalizedNode) : GraphState :=
  ⟨gs.allNodes ++ [n], jset gs.nodeMap n.id n, jset gs.adjacency n.id []⟩

/-- `adjacency.get(a)!.set(b, d)` — a no-op if `a` is unregistered (the
source's non-null assertion; every call site guarantees presence). -/
def insertAdj (adj : JMap String (JMap String ℤ)) (a b : String) (d : ℤ) :
    JMap String (JMap String ℤ) :=
  match jget adj a with
  | some m => jset adj a (jset m b d)
  | none => adj

/-- Insert one edge's adjacency entries: `source→target`, and
`target→source` if the edge is bidirectional. -/
def applyEdgeUnchecked (adj : JMap String (JMap String ℤ))
    (e : NormalizedEdge) : JMap String (JMap String ℤ) :=
  let adj1 := insertAdj adj e.source e.target e.distance
  if e.bidirectional then insertAdj adj1 e.target e.source e.distance else adj1

/-- Phase 2 of `initializeGraph`: an intra-floor edge is materialized only
if both endpoints are registered. -/
def applyEdgeChecked (adj : JMap String (JMap String ℤ))
    (e : NormalizedEdge) : JMap String (JMap String ℤ) :=
  if jhas adj e.source ∧ jhas adj e.target then applyEdgeUnchecked adj e else adj

/-- `initializeGraph()`, parametrised by the floor list. -/
def initializeGraph (floors : List FloorInfo) : GraphState :=
  let gs1 := floors.foldl (fun gs fi => (normalizeNodes fi).foldl registerNode gs)
    ⟨[], [], []⟩
  let adj2 := floors.foldl
    (fun adj fi => (normalizeEdges fi).foldl applyEdgeChecked adj) gs1.adjacency
  let adj3 := (buildInterFloorEdges floors gs1.nodeMap).foldl applyEdgeUnchecked adj2
  ⟨gs1.allNodes, gs1.nodeMap, adj3⟩

/-! ## Shortest-path engine (`findShortestPath`) -/

/-- The Dijkstra working state: tentative distances, predecessor pointers,
and the unvisited set. -/
structure DState where
  dist : JMap String JDist
  prev : JMap String (Option String)
  unvisited : List String
deriving DecidableEq, Repr

/-- Case-insensitive identifier resolution:
`allNodes.find(n => n.id.toLowerCase() === id.toLowerCase())?.id`. -/
def resolveId (gs : GraphState) (x : String) : Option String :=
  (gs.allNodes.find? fun n => jsLower n.id == jsLower x).map (·.id)

/-- The initialization loop: every node id gets distance `Infinity`,
predecessor `null`, and membership in `unvisited`. -/
def initDState (nodes : List NormalizedNode) : DState :=
  nodes.foldl
    (fun s n => ⟨jset s.dist n.id ⊤, jset s.prev n.id none, jsAdd s.unvisited n.id⟩)
    ⟨[], [], []⟩

/-- The linear minimum scan over the unvisited set
(`dist < minDistance` with `minDistance` starting at `Infinity`). -/
def scanMin (dist : JMap String JDist) :
    List String → Option String → JDist → Option String × JDist
  | [], best, bestD => (best, bestD)
  | v :: rest, best, bestD =>
      let d := (jget dist v).getD ⊤
      if d < bestD then scanMin dist rest (some v) d else scanMin dist rest best bestD

/-- The neighbor-relaxation loop for the popped node `u`: each neighbor
still unvisited is offered the distance `(distances.get(u) ?? 0) + w`. -/
def relaxAll (unv : List String) (u : String) :
    List (String × ℤ) → JMap String JDist → JMap String (Option String) →
    JMap String JDist × JMap String (Option String)
  | [], dist, prev => (dist, prev)
  | (nbr, w) :: rest, dist, prev =>
      if nbr ∈ unv then
        let nd := (jget dist u).getD 0 + (w : JDist)
        if nd < (jget dist nbr).getD ⊤ then
          relaxAll unv u rest (jset dist nbr nd) (jset prev nbr (some u))
        else relaxAll unv u rest dist prev
      else relaxAll unv u rest dist prev

/-- The main Dijkstra `while (unvisited.size > 0)` loop.  Each non-breaking
iteration deletes one member of `unvisited`, so running the recursion with
fuel `s.unvisited.length` reproduces the loop exactly: when the fuel is
exhausted the unvisited set is empty and the loop would exit anyway. -/
def dijkstraLoop (adj : JMap String (JMap String ℤ)) (endId : String) :
    Nat → DState → DState
  | 0, s => s
  | Nat.succ fuel, s =>
    if s.unvisited = [] then s
    else
      match scanMin s.dist s.unvisited none ⊤ with
      | (none, _) => s
      | (some u, m) =>
        if m = ⊤ then s
        else if u = endId then s
        else
          let unv := s.unvisited.erase u
          let dp := relaxAll unv u ((jget adj u).getD []) s.dist s.prev
          dijkstraLoop adj endId fuel ⟨dp.1, dp.2, unv⟩

/-- The path-reconstruction loop
(`while (current !== null) { path.unshift(current); current = previous.get(current) ?? null }`).
The predecessor chains produced by the loop above are acyclic and visit
pairwise-distinct nodes, so fuel `allNodes.length + 1` reproduces the loop
exactly on every state the algorithm can produce. -/
def reconstruct (prev : JMap String (Option String)) :
    Nat → Option String → List String → List String
  | _, none, acc => acc
  | 0, some c, acc => c :: acc
  | Nat.succ fuel, some c, acc => reconstruct prev fuel ((jget prev c).getD none) (c :: acc)

/-- Per-node projection pushed onto `pathDetails` (skipping unregistered
ids, `if (node)`). -/
def buildDetails (nm : JMap String NormalizedNode) : List String → List NodeInfo
  | [] => []
  | x :: rest =>
    match jget nm x with
    | some n => ⟨n.id, n.roomType, n.area, n.floor, n.floorLabel⟩ :: buildDetails nm rest
    | none => buildDetails nm rest

/-- One `NavigationStep` for the hop `x → y`, with the source's `?? `
defaults and the floor-change test
`(fromNode?.floor ?? "") !== (toNode?.floor ?? "")`. -/
def mkStep (nm : JMap String NormalizedNode) (adj : JMap String (JMap String ℤ))
    (x y : String) : NavigationStep :=
  let fromNode := jget nm x
  let toNode := jget nm y
  { fromId := x
    fromType := (fromNode.map (·.roomType)).getD "Unknown"
    fromFloor := (fromNode.map (·.floorLabel)).getD "Unknown"
    toId := y
    toType := (toNode.map (·.roomType)).getD "Unknown"
    toFloor := (toNode.map (·.floorLabel)).getD "Unknown"
    distance := (jget2 adj x y).getD 0
    isFloorChange := decide ((fromNode.map (·.floor)).getD "" ≠ (toNode.map (·.floor)).getD "") }

/-- The per-hop loop building `steps`. -/
def buildSteps (nm : JMap String NormalizedNode) (adj : JMap String (JMap String ℤ)) :
    List String → List NavigationStep
  | x :: y :: rest => mkStep nm adj x y :: buildSteps nm adj (y :: rest)
  | _ => []

/-- `floorsSet`: the floors of the path's registered nodes, first occurrence
first (JS `Set` insertion order). -/
def collectFloors (nm : JMap String NormalizedNode) (path : List String) : List String :=
  path.foldl
    (fun acc x => match jget nm x with | some n => jsAdd acc n.floor | none => acc) []

/-- The `found:false` sentinel record. -/
def emptyResult : PathResult :=
  { found := false, path := [], pathDetails := [], totalDistance := 0,
    steps := [], crossesFloors := false, floorsTraversed := [] }

/-- `findShortestPath(startId, endId)` over an assembled graph state.
The `ns = "" ∨ ne = ""` test mirrors JavaScript string truthiness in
`if (!normalizedStart || !normalizedEnd)`: an empty resolved identifier is
treated as unresolved. -/
def findShortestPath (gs : GraphState) (startId endId : String) : PathResult :=
  match resolveId gs startId, resolveId gs endId with
  | some ns, some ne =>
    if ns = "" ∨ ne = "" then emptyResult
    else
      let s0 := initDState gs.allNodes
      let s1 : DState := ⟨jset s0.dist ns 0, s0.prev, s0.unvisited⟩
      let sF := dijkstraLoop gs.adjacency ne s1.unvisited.length s1
      let path := reconstruct sF.prev (gs.allNodes.length + 1) (some ne) []
      if path.head? = some ns then
        let floorsTraversed := sortStr (collectFloors gs.nodeMap path)
        { found := true
          path := path
          pathDetails := buildDetails gs.nodeMap path
          totalDistance := (jget sF.dist ne).getD 0
          steps := buildSteps gs.nodeMap gs.adjacency path
          crossesFloors := decide (floorsTraversed.length > 1)
          floorsTraversed := floorsTraversed }
      else emptyResult
  | _, _ => emptyResult

/-! ## Room search and lookup -/

/-- The `NodeInfo` projection used by every query-layer operation. -/
def projInfo (n : NormalizedNode) : NodeInfo :=
  ⟨n.id, n.roomType, n.area, n.floor, n.floorLabel⟩

/-- `findRoom(query)`. -/
def findRoom (gs : GraphState) (query : String) : List NodeInfo :=
  let queryLower := jsLower query
  (gs.allNodes.filter fun n =>
    jsIncludes (jsLower n.id) queryLower ||
    jsIncludes (jsLower n.name) queryLower ||
    jsIncludes (jsLower n.roomType) queryLower).map projInfo

/-- `getRoomsByType(roomType)`. -/
def getRoomsByType (gs : GraphState) (roomType : String) : List NodeInfo :=
  let typeLower := jsLower roomType
  (gs.allNodes.filter fun n => jsIncludes (jsLower n.roomType) typeLower).map projInfo

/-- `getRoomsByTypeOnFloor(roomType, floor)`. -/
def getRoomsByTypeOnFloor (gs : GraphState) (roomType floor : String) : List NodeInfo :=
  let typeLower := jsLower roomType
  (gs.allNodes.filter fun n =>
    jsIncludes (jsLower n.roomType) typeLower && n.floor == floor).map projInfo

/-- The candidate loop shared verbatim by `findNearestOfType` and
`findNearestOfTypeSameFloor`: keep the first found path and replace it
whenever a strictly shorter one appears. -/
def bestOf (gs : GraphState) (startId : String) (rooms : List NodeInfo) :
    Option PathResult :=
  rooms.foldl
    (fun best room =>
      let p := findShortestPath gs startId room.id
      if p.found then
        match best with
        | none => some p
        | some b => if p.totalDistance < b.totalDistance then some p else some b
      else best)
    none

/-- `findNearestOfType(startId, roomType)`. -/
def findNearestOfType (gs : GraphState) (startId roomType : String) :
    Option PathResult :=
  let targetRooms := getRoomsByType gs roomType
  if targetRooms.isEmpty then none
  else bestOf gs startId targetRooms

/-- `findNearestOfTypeSameFloor(startId, roomType)`.  The start node is
resolved by `nodeMap.get(startId.toUpperCase()) ?? nodeMap.get(startId)`. -/
def findNearestOfTypeSameFloor (gs : GraphState) (startId roomType : String) :
    Option PathResult :=
  match (jget gs.nodeMap (jsUpper startId)).orElse (fun _ => jget gs.nodeMap startId) with
  | none => findNearestOfType gs startId roomType
  | some startNode =>
    match bestOf gs startId (getRoomsByTypeOnFloor gs roomType startNode.floor) with
    | some b => some b
    | none => findNearestOfType gs startId roomType

/-! ## Walks in the adjacency mapping (specification vocabulary) -/

/-- The cost of one hop: the adjacency entry's weight, `⊤` if absent. -/
def stepD (adj : JMap String (JMap String ℤ)) (x y : String) : JDist :=
  match jget2 adj x y with
  | some w => (w : JDist)
  | none => ⊤

/-- The total cost of a node sequence: `⊤` as soon as one hop is missing
from the adjacency mapping (and for the empty sequence, which is not a
walk). -/
def walkCostD (adj : JMap String (JMap String ℤ)) : List String → JDist
  | [] => ⊤
  | [_] => 0
  | x :: y :: rest => stepD adj x y + walkCostD adj (y :: rest)

/-- A valid walk: every consecutive pair is an adjacency entry. -/
def IsWalk (adj : JMap String (JMap String ℤ)) (l : List String) : Prop :=
  List.Chain' (fun a b => (jget2 adj a b).isSome = true) l

/-- A walk from `a` to `b`: nonempty, starts at `a`, ends at `b`, every hop
present (finite cost). -/
def WalkFromTo (adj : JMap String (JMap String ℤ)) (a b : String)
    (l : List String) : Prop :=
  l.head? = some a ∧ l.getLast? = some b ∧ walkCostD adj l < ⊤

/-- `b` is reachable from `a` in the adjacency mapping. -/
def ReachableIn (adj : JMap String (JMap String ℤ)) (a b : String) : Prop :=
  ∃ l, WalkFromTo adj a b l

/-! ## Basic properties of the container and string models -/

theorem jget_jset {α β : Type} [DecidableEq α] (m : JMap α β) (k k' : α) (v : β) :
    jget (jset m k v) k' = if k = k' then some v else jget m k' := by
  induction m with
  | nil => simp [jset, jget]
  | cons p rest ih =>
    obtain ⟨k₀, v₀⟩ := p
    by_cases h : k₀ = k
    · subst h
      by_cases h' : k₀ = k'
      · subst h'
        simp [jset, jget]
      · simp [jset, jget, h']
    · by_cases h' : k₀ = k'
      · subst h'
        have hne : ¬(k = k₀) := fun hh => h hh.symm
        simp [jset, jget, h, hne]
      · simp [jset, jget, h, h', ih]

theorem jget_jset_self {α β : Type} [DecidableEq α] (m : JMap α β) (k : α) (v : β) :
    jget (jset m k v) k = some v := by
  rw [jget_jset, if_pos rfl]

theorem jget_jset_ne {α β : Type} [DecidableEq α] (m : JMap α β) {k k' : α} (v : β)
    (h : k ≠ k') : jget (jset m k v) k' = jget m k' := by
  rw [jget_jset, if_neg h]

theorem jget_mem {α β : Type} [DecidableEq α] {m : JMap α β} {k : α} {v : β}
    (h : jget m k = some v) : (k, v) ∈ m := by
  induction m with
  | nil => simp [jget] at h
  | cons p rest ih =>
    obtain ⟨k₀, v₀⟩ := p
    rw [jget] at h
    split at h
    · next heq =>
      cases h
      subst heq
      exact List.mem_cons_self _ _
    · exact List.mem_cons_of_mem _ (ih h)

theorem jget_eq_some_of_nodupkeys_mem {α β : Type} [DecidableEq α] {m : JMap α β}
    (hnd : (m.map Prod.fst).Nodup) {k : α} {v : β} (h : (k, v) ∈ m) :
    jget m k = some v := by
  induction m with
  | nil => simp at h
  | cons p rest ih =>
    obtain ⟨k₀, v₀⟩ := p
    simp only [List.map_cons, List.nodup_cons] at hnd
    rcases List.mem_cons.mp h with h1 | h1
    · cases h1
      simp [jget]
    · have hk : k₀ ≠ k := by
        intro he
        exact hnd.1 (he ▸ List.mem_map_of_mem Prod.fst h1)
      rw [jget, if_neg hk]
      exact ih hnd.2 h1

theorem mem_jsAdd {α : Type} [DecidableEq α] (l : List α) (x y : α) :
    y ∈ jsAdd l x ↔ y ∈ l ∨ y = x := by
  unfold jsAdd
  split
  · next h =>
    constructor
    · exact Or.inl
    · rintro (h1 | rfl)
      · exact h1
      · exact h
  · simp

theorem nodup_jsAdd {α : Type} [DecidableEq α] (l : List α) (x : α) (h : l.Nodup) :
    (jsAdd l x).Nodup := by
  unfold jsAdd
  split
  · exact h
  · next hx =>
    simp [List.nodup_append, h, hx]

theorem toNat_ofNat_valid {n : Nat} (h : n.isValidChar) : (Char.ofNat n).toNat = n := by
  rw [Char.ofNat, dif_pos h]
  rfl

theorem lcChar_ucChar (c : Char) : lcChar (ucChar c) = lcChar c := by
  unfold ucChar lcChar
  by_cases h : 97 ≤ c.toNat ∧ c.toNat ≤ 122
  · have hval : (c.toNat - 32).isValidChar := by
      left
      omega
    rw [if_pos h]
    rw [if_pos (by rw [toNat_ofNat_valid hval]; omega :
      65 ≤ (Char.ofNat (c.toNat - 32)).toNat ∧ (Char.ofNat (c.toNat - 32)).toNat ≤ 90)]
    rw [if_neg (by omega : ¬(65 ≤ c.toNat ∧ c.toNat ≤ 90))]
    rw [toNat_ofNat_valid hval]
    have harith : c.toNat - 32 + 32 = c.toNat := by omega
    rw [harith, Char.ofNat_toNat]
  · rw [if_neg h]

theorem jsLower_jsUpper (s : String) : jsLower (jsUpper s) = jsLower s := by
  unfold jsLower jsUpper
  cases s with
  | mk data =>
    simp [List.map_map, Function.comp_def, lcChar_ucChar]

theorem jsIncludes_empty (s : String) : jsIncludes s "" = true := by
  unfold jsIncludes
  rw [decide_eq_true_eq]
  exact List.nil_infix

theorem length_insertSorted (x : String) (l : List String) :
    (insertSorted x l).length = l.length + 1 := by
  induction l with
  | nil => rfl
  | cons y rest ih =>
    unfold insertSorted
    split
    · simp
    · simp [ih]

theorem length_sortStr (l : List String) : (sortStr l).length = l.length := by
  unfold sortStr
  induction l with
  | nil => rfl
  | cons x rest ih => simp [List.foldr_cons, length_insertSorted, ih]

/-! ## Well-formedness of an assembled graph state

The floor-data JSON files are absent from the embedded sources, so the
specification's data-model invariants (§3: positive edge distances, globally
unique identifiers) are taken as hypotheses on the assembled state, stated in
decidable (list-quantified) form. -/

/-- The registered node identifiers, in registration order. -/
def idsOf (gs : GraphState) : List String := gs.allNodes.map (·.id)

/-- Adjacency well-formedness: per-source neighbor keys are duplicate-free
(as for any JavaScript `Map`), every neighbor is a registered id, and every
weight is non-negative (spec §3: distances are positive numbers). -/
def AdjOk (gs : GraphState) : Prop :=
  ∀ p ∈ gs.adjacency, (p.2.map Prod.fst).Nodup ∧
    ∀ q ∈ p.2, q.1 ∈ idsOf gs ∧ 0 ≤ q.2

/-- Node-table coherence: every table entry stores a registered node under
its own id, and every registered node is in the table. -/
def NodeMapOk (gs : GraphState) : Prop :=
  (∀ p ∈ gs.nodeMap, p.2 ∈ gs.allNodes ∧ p.2.id = p.1) ∧
    ∀ n ∈ gs.allNodes, jhas gs.nodeMap n.id = true

/-- Identifier uniqueness up to case (spec §3: the identifier is the sole
addressing mechanism; resolution is case-insensitive). -/
def LcInj (gs : GraphState) : Prop :=
  ∀ n₁ ∈ gs.allNodes, ∀ n₂ ∈ gs.allNodes, jsLower n₁.id = jsLower n₂.id → n₁ = n₂

theorem adjOk_entry {gs : GraphState} (h : AdjOk gs) {a b : String} {w : ℤ}
    (hw : jget2 gs.adjacency a b = some w) : b ∈ idsOf gs ∧ 0 ≤ w := by
  unfold jget2 at hw
  cases hm : jget gs.adjacency a with
  | none => rw [hm] at hw; simp at hw
  | some m =>
    rw [hm] at hw
    simp only [Option.some_bind] at hw
    exact (h _ (jget_mem hm)).2 _ (jget_mem hw)

theorem adjOk_jget2_of_mem {gs : GraphState} (h : AdjOk gs) {a b : String} {w : ℤ}
    {m : JMap String ℤ} (hm : jget gs.adjacency a = some m) (hbm : (b, w) ∈ m) :
    jget2 gs.adjacency a b = some w := by
  unfold jget2
  rw [hm]
  simp only [Option.some_bind]
  exact jget_eq_some_of_nodupkeys_mem (h _ (jget_mem hm)).1 hbm

theorem resolveId_eq_none {gs : GraphState} {x : String}
    (h : ∀ n ∈ gs.allNodes, jsLower n.id ≠ jsLower x) : resolveId gs x = none := by
  unfold resolveId
  rw [List.find?_eq_none.mpr]
  · rfl
  · intro n hn
    simp only [beq_iff_eq]
    exact h n hn

theorem resolveId_mem {gs : GraphState} {x ns : String}
    (h : resolveId gs x = some ns) :
    ∃ n ∈ gs.allNodes, n.id = ns ∧ jsLower n.id = jsLower x := by
  unfold resolveId at h
  cases hf : gs.allNodes.find? fun n => jsLower n.id == jsLower x with
  | none => rw [hf] at h; simp at h
  | some n =>
    rw [hf] at h
    simp only [Option.map_some'] at h
    cases h
    have := List.find?_some hf
    simp only [beq_iff_eq] at this
    exact ⟨n, List.mem_of_find?_eq_some hf, rfl, this⟩

theorem resolveId_self {gs : GraphState} (hinj : LcInj gs) {n : NormalizedNode}
    (hn : n ∈ gs.allNodes) : resolveId gs n.id = some n.id := by
  unfold resolveId
  cases hf : gs.allNodes.find? fun m => jsLower m.id == jsLower n.id with
  | none =>
    rw [List.find?_eq_none] at hf
    exact absurd (by simp : (jsLower n.id == jsLower n.id) = true) (hf n hn)
  | some m =>
    have hp := List.find?_some hf
    simp only [beq_iff_eq] at hp
    have := hinj m (List.mem_of_find?_eq_some hf) n hn hp
    subst this
    simp

/-! ## C10: `findRoom` with the empty query -/

/-- C10: `findRoom` applied to the empty string returns the `NodeInfo`
projection of every node of the graph (the empty string is a substring of
every id, name and room type); the fuzzy-lookup interface imposes no
minimum query length, trimming, or rejection of empty queries. -/
theorem C10_findRoom_empty_query (gs : GraphState) :
    findRoom gs "" = gs.allNodes.map projInfo := by
  unfold findRoom
  have hlow : jsLower "" = "" := rfl
  rw [hlow]
  show List.map projInfo (List.filter (fun n =>
      jsIncludes (jsLower n.id) "" || jsIncludes (jsLower n.name) "" ||
      jsIncludes (jsLower n.roomType) "") gs.allNodes) = List.map projInfo gs.allNodes
  rw [List.filter_eq_self.mpr fun n _ => by rw [jsIncludes_empty]; rfl]

/-! ## C5: unresolvable identifiers -/

/-- C5: if either caller-supplied identifier matches no node of the graph
under case-insensitive comparison, `findShortestPath` returns `found:false`
with `path`, `pathDetails`, `steps` and `floorsTraversed` all empty,
`totalDistance = 0`, and `crossesFloors = false`. -/
theorem C5_unresolved_identifier (gs : GraphState) (startId endId : String)
    (h : (∀ n ∈ gs.allNodes, jsLower n.id ≠ jsLower startId) ∨
         (∀ n ∈ gs.allNodes, jsLower n.id ≠ jsLower endId)) :
    let r := findShortestPath gs startId endId
    r.found = false ∧ r.path = [] ∧ r.pathDetails = [] ∧ r.steps = [] ∧
      r.floorsTraversed = [] ∧ r.totalDistance = 0 ∧ r.crossesFloors = false := by
  intro r
  have hr : r = emptyResult := by
    show findShortestPath gs startId endId = emptyResult
    unfold findShortestPath
    rcases h with h1 | h1
    · rw [resolveId_eq_none h1]
    · cases resolveId gs startId
      · rw [resolveId_eq_none h1]
      · rw [resolveId_eq_none h1]
  rw [hr]
  refine ⟨rfl, rfl, rfl, rfl, rfl, rfl, rfl⟩

/-! ## C3: name-derivation precedence in `normalizeNodes` -/

/-- Name derivation as the claim states it: the explicit `name` field if
present and non-empty; otherwise the first NON-EMPTY segment of the
`label_raw` split; otherwise the text following the first whitespace token
of `label`; otherwise the empty string. -/
def claimNameC3 (n : RawNode) : String :=
  if n.name.getD "" ≠ "" then n.name.getD ""
  else
    match (((jsSplit (n.label_raw.getD "")).map jsTrim).filter (· ≠ "")).head? with
    | some seg => seg
    | none =>
      match jsIndexOfSpace (n.label.getD "") with
      | some i => jsTrim (jsSubstringFrom (n.label.getD "") (i + 1))
      | none => ""

/-- The segment the code actually picks from a `label_raw` split: the
second segment when the split yields more than one, else the first —
trimmed either way. -/
def splitPick (parts : List String) : String :=
  if parts.length > 1 then jsTrim (parts.getD 1 "") else jsTrim (parts.getD 0 "")

/-- Name derivation as amended to match the code: explicit non-empty
`name`; else, when `label_raw` is non-empty, the second (not first
non-empty) segment of its split if the split yields more than one segment,
else its sole segment, trimmed — retained only when non-empty after the
trim; else, when `label` is non-empty, the trimmed text after the first
space if `label` contains a space, else `label` itself untrimmed; else the
empty string. -/
def amendedNameC3 (n : RawNode) : String :=
  if n.name.getD "" ≠ "" then n.name.getD ""
  else if n.label_raw.getD "" ≠ "" ∧ splitPick (jsSplit (n.label_raw.getD "")) ≠ "" then
    splitPick (jsSplit (n.label_raw.getD ""))
  else if n.label.getD "" ≠ "" then
    match jsIndexOfSpace (n.label.getD "") with
    | some i => jsTrim (jsSubstringFrom (n.label.getD "") (i + 1))
    | none => n.label.getD ""
  else ""

/-- A raw node on which the claimed and actual precedence differ:
`label_raw = "A - B"` splits into `["A", "B"]`; the first non-empty
segment is `"A"`, but the code takes the second segment. -/
def cexFloorC3 : FloorInfo :=
  ⟨"A00", "0", "Ground Floor (EG)", "0",
    ⟨[{ id := "X", label_raw := some "A - B" }], []⟩⟩

/-- C3 counterexample: on the raw node with `label_raw = "A - B"` (and no
`name`), `normalizeNodes` derives the name `"B"` while the claimed
precedence (first non-empty segment) yields `"A"`. -/
theorem C3_counterexample :
    (normalizeNodes cexFloorC3).map (·.name) = ["B"] ∧
    cexFloorC3.data.nodes.map claimNameC3 = ["A"] := by
  constructor
  · decide
  · decide

theorem deriveName_eq_amended (n : RawNode) : deriveName n = amendedNameC3 n := by
  unfold deriveName amendedNameC3 splitPick
  generalize n.name.getD "" = a
  generalize n.label_raw.getD "" = b
  generalize n.label.getD "" = c
  generalize jsSplit b = parts
  generalize (if parts.length > 1 then jsTrim (parts.getD 1 "")
    else jsTrim (parts.getD 0 "")) = sp
  by_cases ha : a = ""
  · by_cases hb : b = ""
    · by_cases hcc : c = ""
      · simp [ha, hb, hcc]
      · simp [ha, hb, hcc]
    · by_cases hsp : sp = ""
      · by_cases hcc : c = ""
        · simp [ha, hb, hsp, hcc]
        · simp [ha, hb, hsp, hcc]
      · simp [ha, hb, hsp]
  · simp [ha]

/-- C3 amended: for every raw node record, `normalizeNodes` derives the
canonical name by: the explicit `name` field when present and non-empty;
otherwise, when `label_raw` is present and non-empty, the trimmed second
segment of its newline-or-dash split when the split yields more than one
segment (else the trimmed sole segment), kept only when non-empty;
otherwise, when `label` is present and non-empty, the trimmed text after
its first space when it has one, else `label` itself; otherwise the empty
string. -/
theorem C3_amended_name_precedence (fi : FloorInfo) :
    (normalizeNodes fi).map (·.name) = fi.data.nodes.map amendedNameC3 := by
  unfold normalizeNodes
  rw [List.map_map]
  apply List.map_congr_left
  intro n _
  exact deriveName_eq_amended n

/-! ## Dijkstra infrastructure: initialization and the minimum scan -/

theorem initDState_fold (nodes : List NormalizedNode) (s0 : DState) :
    let s := nodes.foldl
      (fun s n => ⟨jset s.dist n.id ⊤, jset s.prev n.id none, jsAdd s.unvisited n.id⟩) s0
    (∀ v, jget s.dist v = if v ∈ nodes.map (·.id) then some ⊤ else jget s0.dist v) ∧
    (∀ v, jget s.prev v = if v ∈ nodes.map (·.id) then some none else jget s0.prev v) ∧
    (∀ v, v ∈ s.unvisited ↔ v ∈ s0.unvisited ∨ v ∈ nodes.map (·.id)) ∧
    (s0.unvisited.Nodup → s.unvisited.Nodup) := by
  induction nodes generalizing s0 with
  | nil => simp
  | cons n rest ih =>
    simp only [List.foldl_cons, List.map_cons, List.mem_cons]
    obtain ⟨ihd, ihp, ihu, ihn⟩ :=
      ih ⟨jset s0.dist n.id ⊤, jset s0.prev n.id none, jsAdd s0.unvisited n.id⟩
    refine ⟨?_, ?_, ?_, ?_⟩
    · intro v
      rw [ihd v]
      by_cases hv : v ∈ rest.map (·.id)
      · simp [hv]
      · simp only [hv, if_false]
        rw [jget_jset]
        by_cases he : v = n.id
        · simp [he]
        · have hne : ¬(n.id = v) := fun hh => he hh.symm
          simp [he, hne, hv]
    · intro v
      rw [ihp v]
      by_cases hv : v ∈ rest.map (·.id)
      · simp [hv]
      · simp only [hv, if_false]
        rw [jget_jset]
        by_cases he : v = n.id
        · simp [he]
        · have hne : ¬(n.id = v) := fun hh => he hh.symm
          simp [he, hne, hv]
    · intro v
      rw [ihu v, mem_jsAdd]
      tauto
    · intro h0
      exact ihn (nodup_jsAdd _ _ h0)

theorem initDState_dist (nodes : List NormalizedNode) (v : String) :
    jget (initDState nodes).dist v =
      if v ∈ nodes.map (·.id) then some ⊤ else none := by
  have h := (initDState_fold nodes ⟨[], [], []⟩).1 v
  simpa [initDState, jget] using h

theorem initDState_prev (nodes : List NormalizedNode) (v : String) :
    jget (initDState nodes).prev v =
      if v ∈ nodes.map (·.id) then some none else none := by
  have h := (initDState_fold nodes ⟨[], [], []⟩).2.1 v
  simpa [initDState, jget] using h

theorem initDState_unvisited (nodes : List NormalizedNode) (v : String) :
    v ∈ (initDState nodes).unvisited ↔ v ∈ nodes.map (·.id) := by
  have h := (initDState_fold nodes ⟨[], [], []⟩).2.2.1 v
  simpa [initDState] using h

theorem initDState_nodup (nodes : List NormalizedNode) :
    (initDState nodes).unvisited.Nodup := by
  exact (initDState_fold nodes ⟨[], [], []⟩).2.2.2 List.nodup_nil

theorem scanMin_spec (dist : JMap String JDist) (l : List String) (b0 : Option String)
    (d0 : JDist) :
    (scanMin dist l b0 d0 = (b0, d0) ∨
      ((scanMin dist l b0 d0).2 < d0 ∧ ∃ u ∈ l, (scanMin dist l b0 d0).1 = some u ∧
        (scanMin dist l b0 d0).2 = (jget dist u).getD ⊤)) ∧
    ∀ v ∈ l, (scanMin dist l b0 d0).2 ≤ (jget dist v).getD ⊤ := by
  induction l generalizing b0 d0 with
  | nil => simp [scanMin]
  | cons v rest ih =>
    by_cases hd : (jget dist v).getD ⊤ < d0
    · have hunf : scanMin dist (v :: rest) b0 d0 =
        scanMin dist rest (some v) ((jget dist v).getD ⊤) := by
        simp [scanMin, hd]
      rw [hunf]
      obtain ⟨ih1, ih2⟩ := ih (some v) ((jget dist v).getD ⊤)
      constructor
      · rcases ih1 with h1 | h1
        · right
          rw [h1]
          exact ⟨hd, v, List.mem_cons_self _ _, rfl, rfl⟩
        · right
          obtain ⟨hlt, u, hu, he1, he2⟩ := h1
          exact ⟨lt_trans hlt hd, u, List.mem_cons_of_mem _ hu, he1, he2⟩
      · intro x hx
        rcases List.mem_cons.mp hx with rfl | hx
        · rcases ih1 with h1 | h1
          · rw [h1]
          · exact le_of_lt h1.1
        · exact ih2 x hx
    · have hunf : scanMin dist (v :: rest) b0 d0 = scanMin dist rest b0 d0 := by
        simp [scanMin, hd]
      rw [hunf]
      obtain ⟨ih1, ih2⟩ := ih b0 d0
      constructor
      · rcases ih1 with h1 | h1
        · exact Or.inl h1
        · exact Or.inr ⟨h1.1, h1.2.elim fun u hu => ⟨u, List.mem_cons_of_mem _ hu.1, hu.2⟩⟩
      · intro x hx
        rcases List.mem_cons.mp hx with rfl | hx
        · have hle : (scanMin dist rest b0 d0).2 ≤ d0 := by
            rcases ih1 with h1 | h1
            · rw [h1]
            · exact le_of_lt h1.1
          exact le_trans hle (not_lt.mp hd)
        · exact ih2 x hx

theorem scanMin_some {dist : JMap String JDist} {l : List String} {u : String} {m : JDist}
    (h : scanMin dist l none ⊤ = (some u, m)) :
    u ∈ l ∧ (jget dist u).getD ⊤ = m ∧ m < ⊤ ∧
      ∀ v ∈ l, m ≤ (jget dist v).getD ⊤ := by
  obtain ⟨h1, h2⟩ := scanMin_spec dist l none ⊤
  rw [h] at h1 h2
  rcases h1 with h1 | h1
  · cases h1
  · obtain ⟨hlt, u', hu', he1, he2⟩ := h1
    simp only at he1 he2 hlt
    cases he1
    exact ⟨hu', he2.symm, hlt, h2⟩

theorem scanMin_none {dist : JMap String JDist} {l : List String} {m : JDist}
    (h : scanMin dist l none ⊤ = (none, m)) :
    ∀ v ∈ l, (jget dist v).getD ⊤ = ⊤ := by
  obtain ⟨h1, h2⟩ := scanMin_spec dist l none ⊤
  rw [h] at h1 h2
  have hm : m = ⊤ := by
    rcases h1 with h1 | h1
    · injection h1
    · obtain ⟨_, u, _, he1, _⟩ := h1
      simp at he1
  intro v hv
  have hle := h2 v hv
  rw [hm] at hle
  exact top_le_iff.mp hle

/-! ## Walk arithmetic -/

theorem stepD_eq_of_jget2 {adj : JMap String (JMap String ℤ)} {x y : String} {w : ℤ}
    (h : jget2 adj x y = some w) : stepD adj x y = (w : JDist) := by
  unfold stepD
  rw [h]

theorem stepD_lt_top {adj : JMap String (JMap String ℤ)} {x y : String}
    (h : stepD adj x y < ⊤) : ∃ w, jget2 adj x y = some w := by
  unfold stepD at h
  cases hj : jget2 adj x y with
  | none => rw [hj] at h; exact absurd h (lt_irrefl _)
  | some w => exact ⟨w, rfl⟩

theorem stepD_nonneg {gs : GraphState} (hA : AdjOk gs) (x y : String) :
    0 ≤ stepD gs.adjacency x y := by
  cases hj : jget2 gs.adjacency x y with
  | none =>
    unfold stepD
    rw [hj]
    exact le_top
  | some w =>
    rw [stepD_eq_of_jget2 hj]
    exact_mod_cast (adjOk_entry hA hj).2

theorem walkCostD_nonneg {gs : GraphState} (hA : AdjOk gs) (l : List String) :
    0 ≤ walkCostD gs.adjacency l := by
  induction l with
  | nil => exact le_top
  | cons x rest ih =>
    cases rest with
    | nil => exact le_refl _
    | cons y rest' =>
      calc (0 : JDist) = 0 + 0 := by rw [add_zero]
      _ ≤ stepD gs.adjacency x y + walkCostD gs.adjacency (y :: rest') :=
          add_le_add (stepD_nonneg hA x y) ih

theorem walkCostD_concat (adj : JMap String (JMap String ℤ)) {l : List String}
    {x : String} (b : String) (h : l.getLast? = some x) :
    walkCostD adj (l ++ [b]) = walkCostD adj l + stepD adj x b := by
  induction l with
  | nil => simp at h
  | cons y rest ih =>
    cases rest with
    | nil =>
      simp only [List.getLast?_singleton] at h
      cases h
      show stepD adj x b + walkCostD adj [b] = walkCostD adj [x] + stepD adj x b
      show stepD adj x b + 0 = 0 + stepD adj x b
      rw [add_zero, zero_add]
    | cons z rest' =>
      have hlast : (z :: rest').getLast? = some x := by
        rw [← h]
        exact (List.getLast?_cons_cons ..).symm
      show stepD adj y z + walkCostD adj ((z :: rest') ++ [b]) =
        (stepD adj y z + walkCostD adj (z :: rest')) + stepD adj x b
      rw [ih hlast, add_assoc]

theorem walk_mem_ids {gs : GraphState} (hA : AdjOk gs) :
    ∀ (l : List String) (a : String), l.head? = some a → a ∈ idsOf gs →
      walkCostD gs.adjacency l < ⊤ → ∀ x ∈ l, x ∈ idsOf gs := by
  intro l
  induction l with
  | nil => intro a h; simp at h
  | cons y rest ih =>
    intro a hh ha hc x hx
    have hya : y = a := by simpa using hh
    cases rest with
    | nil =>
      rcases List.mem_singleton.mp hx with rfl
      rw [hya]
      exact ha
    | cons z rest' =>
      have hc' : stepD gs.adjacency y z + walkCostD gs.adjacency (z :: rest') < ⊤ := hc
      have hparts := WithTop.add_lt_top.mp hc'
      obtain ⟨w, hw⟩ := stepD_lt_top hparts.1
      have hz : z ∈ idsOf gs := (adjOk_entry hA hw).1
      rcases List.mem_cons.mp hx with rfl | hx'
      · rw [hya]
        exact ha
      · exact ih z rfl hz hparts.2 x hx'

/-! ## Predecessor chains and path reconstruction -/

/-- The chain of `previous` pointers from a node back to a root whose
pointer is `null`, listed root first. -/
inductive PrevChain (prev : JMap String (Option String)) : String → List String → Prop
  | base (v : String) : jget prev v = some none → PrevChain prev v [v]
  | step (u v : String) (l : List String) : jget prev v = some (some u) →
      PrevChain prev u l → PrevChain prev v (l ++ [v])

theorem PrevChain.ne_nil {prev : JMap String (Option String)} {v : String}
    {l : List String} (h : PrevChain prev v l) : l ≠ [] := by
  cases h with
  | base _ _ => simp
  | step u v l _ _ => simp

theorem PrevChain.getLast_eq {prev : JMap String (Option String)} {v : String}
    {l : List String} (h : PrevChain prev v l) : l.getLast? = some v := by
  cases h with
  | base _ _ => rfl
  | step u v l _ _ => exact List.getLast?_concat l

theorem PrevChain.of_jset_not_mem {prev : JMap String (Option String)} {v y : String}
    {l : List String} {pv : Option String} (h : PrevChain prev v l) (hy : y ∉ l) :
    PrevChain (jset prev y pv) v l := by
  induction h with
  | base v hv =>
    have hne : y ≠ v := fun he => hy (he ▸ List.mem_singleton_self v)
    exact PrevChain.base v (by rw [jget_jset_ne _ _ hne]; exact hv)
  | step u v l hv hc ih =>
    have hyl : y ∉ l := fun hm => hy (List.mem_append_left _ hm)
    have hne : y ≠ v := fun he => hy (List.mem_append_right _ (he ▸ List.mem_singleton_self v))
    exact PrevChain.step u v l (by rw [jget_jset_ne _ _ hne]; exact hv) (ih hyl)

theorem reconstruct_of_chain {prev : JMap String (Option String)} {v : String}
    {l : List String} (h : PrevChain prev v l) :
    ∀ (acc : List String) (fuel : Nat), l.length ≤ fuel →
      reconstruct prev fuel (some v) acc = l ++ acc := by
  induction h with
  | base v hv =>
    intro acc fuel hfuel
    cases fuel with
    | zero => simp at hfuel
    | succ k =>
      show reconstruct prev k ((jget prev v).getD none) (v :: acc) = [v] ++ acc
      rw [hv]
      show reconstruct prev k none (v :: acc) = [v] ++ acc
      simp [reconstruct]
  | step u v l hv hc ih =>
    intro acc fuel hfuel
    cases fuel with
    | zero => simp at hfuel
    | succ k =>
      show reconstruct prev k ((jget prev v).getD none) (v :: acc) = (l ++ [v]) ++ acc
      rw [hv]
      show reconstruct prev k (some u) (v :: acc) = (l ++ [v]) ++ acc
      rw [ih (v :: acc) k (by simp at hfuel; omega)]
      simp

theorem reconstruct_getLast (prev : JMap String (Option String)) :
    ∀ (fuel : Nat) (c : String) (acc : List String),
      (reconstruct prev fuel (some c) acc).getLast? = (c :: acc).getLast? := by
  intro fuel
  induction fuel with
  | zero => intro c acc; rfl
  | succ k ih =>
    intro c acc
    show (reconstruct prev k ((jget prev c).getD none) (c :: acc)).getLast? = _
    cases hn : (jget prev c).getD none with
    | none => simp [reconstruct]
    | some u =>
      rw [ih u (c :: acc)]
      simp

/-! ## Relaxation-pass lemmas -/

theorem getD_top_of_lt_top {o : Option JDist} (h : o.getD ⊤ < ⊤) :
    o = some (o.getD ⊤) := by
  cases o with
  | none => exact absurd h (lt_irrefl _)
  | some m => rfl

theorem mem_split_last {α : Type} {l : List α} {v x : α} (hl : l.getLast? = some v)
    (hx : x ∈ l) : x ∈ l.dropLast ∨ x = v := by
  have hne : l ≠ [] := by
    intro he
    rw [he] at hl
    simp at hl
  have hv : l.getLast hne = v := by
    have := List.getLast?_eq_getLast l hne
    rw [hl] at this
    exact (Option.some_inj.mp this).symm
  have hdecomp := List.dropLast_append_getLast hne
  rw [← hdecomp] at hx
  rcases List.mem_append.mp hx with h1 | h1
  · exact Or.inl h1
  · right
    rw [← hv]
    exact List.mem_singleton.mp h1

theorem relaxAll_cons (unv : List String) (u b : String) (w : ℤ)
    (rest : List (String × ℤ)) (dist : JMap String JDist)
    (prev : JMap String (Option String)) :
    relaxAll unv u ((b, w) :: rest) dist prev =
      if b ∈ unv then
        (if (jget dist u).getD 0 + (w : JDist) < (jget dist b).getD ⊤ then
          relaxAll unv u rest (jset dist b ((jget dist u).getD 0 + (w : JDist)))
            (jset prev b (some u))
        else relaxAll unv u rest dist prev)
      else relaxAll unv u rest dist prev := by
  rfl

theorem relaxAll_off_unv (unv : List String) (u : String) (es : List (String × ℤ))
    (dist : JMap String JDist) (prev : JMap String (Option String))
    (v : String) (hv : v ∉ unv) :
    jget (relaxAll unv u es dist prev).1 v = jget dist v ∧
    jget (relaxAll unv u es dist prev).2 v = jget prev v := by
  induction es generalizing dist prev with
  | nil => exact ⟨rfl, rfl⟩
  | cons p rest ih =>
    obtain ⟨b, w⟩ := p
    rw [relaxAll_cons]
    by_cases hb : b ∈ unv
    · rw [if_pos hb]
      by_cases hlt : (jget dist u).getD 0 + (w : JDist) < (jget dist b).getD ⊤
      · rw [if_pos hlt]
        have hbv : b ≠ v := fun he => hv (he ▸ hb)
        obtain ⟨h1, h2⟩ := ih (jset dist b ((jget dist u).getD 0 + (w : JDist)))
          (jset prev b (some u))
        rw [h1, h2, jget_jset_ne _ _ hbv, jget_jset_ne _ _ hbv]
        exact ⟨rfl, rfl⟩
      · rw [if_neg hlt]
        exact ih dist prev
    · rw [if_neg hb]
      exact ih dist prev

theorem relaxAll_u_dist (unv : List String) (u : String) (es : List (String × ℤ))
    (dist : JMap String JDist) (prev : JMap String (Option String))
    (hu : u ∉ unv) :
    jget (relaxAll unv u es dist prev).1 u = jget dist u :=
  (relaxAll_off_unv unv u es dist prev u hu).1

theorem relaxAll_mono (unv : List String) (u : String) (es : List (String × ℤ))
    (dist : JMap String JDist) (prev : JMap String (Option String)) (v : String) :
    (jget (relaxAll unv u es dist prev).1 v).getD ⊤ ≤ (jget dist v).getD ⊤ := by
  induction es generalizing dist prev with
  | nil => exact le_refl _
  | cons p rest ih =>
    obtain ⟨b, w⟩ := p
    rw [relaxAll_cons]
    by_cases hb : b ∈ unv
    · rw [if_pos hb]
      by_cases hlt : (jget dist u).getD 0 + (w : JDist) < (jget dist b).getD ⊤
      · rw [if_pos hlt]
        refine le_trans (ih (jset dist b _) (jset prev b (some u))) ?_
        by_cases hv : b = v
        · subst hv
          rw [jget_jset_self]
          exact le_of_lt hlt
        · rw [jget_jset_ne _ _ hv]
      · rw [if_neg hlt]
        exact ih dist prev
    · rw [if_neg hb]
      exact ih dist prev

theorem relaxAll_val (unv : List String) (u : String) (es : List (String × ℤ))
    (dist : JMap String JDist) (prev : JMap String (Option String)) (v : String)
    (hu : u ∉ unv) :
    jget (relaxAll unv u es dist prev).1 v = jget dist v ∨
      ∃ w', (v, w') ∈ es ∧
        jget (relaxAll unv u es dist prev).1 v = some ((jget dist u).getD 0 + (w' : JDist)) := by
  induction es generalizing dist prev with
  | nil => exact Or.inl rfl
  | cons p rest ih =>
    obtain ⟨b, w⟩ := p
    rw [relaxAll_cons]
    by_cases hb : b ∈ unv
    · rw [if_pos hb]
      by_cases hlt : (jget dist u).getD 0 + (w : JDist) < (jget dist b).getD ⊤
      · rw [if_pos hlt]
        have hbu : b ≠ u := fun he => hu (he ▸ hb)
        have hdu : jget (jset dist b ((jget dist u).getD 0 + (w : JDist))) u = jget dist u :=
          jget_jset_ne _ _ hbu
        rcases ih (jset dist b _) (jset prev b (some u)) with h1 | h1
        · rw [h1, jget_jset]
          by_cases hv : b = v
          · subst hv
            rw [if_pos rfl]
            exact Or.inr ⟨w, List.mem_cons_self _ _, rfl⟩
          · rw [if_neg hv]
            exact Or.inl rfl
        · obtain ⟨w', hw1, hw2⟩ := h1
          rw [hdu] at hw2
          exact Or.inr ⟨w', List.mem_cons_of_mem _ hw1, hw2⟩
      · rw [if_neg hlt]
        rcases ih dist prev with h1 | h1
        · exact Or.inl h1
        · obtain ⟨w', hw1, hw2⟩ := h1
          exact Or.inr ⟨w', List.mem_cons_of_mem _ hw1, hw2⟩
    · rw [if_neg hb]
      rcases ih dist prev with h1 | h1
      · exact Or.inl h1
      · obtain ⟨w', hw1, hw2⟩ := h1
        exact Or.inr ⟨w', List.mem_cons_of_mem _ hw1, hw2⟩

theorem relaxAll_cover (unv : List String) (u : String) (es : List (String × ℤ))
    (dist : JMap String JDist) (prev : JMap String (Option String))
    (hu : u ∉ unv) {b : String} {w : ℤ} (hbw : (b, w) ∈ es) (hbu : b ∈ unv) :
    (jget (relaxAll unv u es dist prev).1 b).getD ⊤ ≤
      (jget dist u).getD 0 + (w : JDist) := by
  induction es generalizing dist prev with
  | nil => simp at hbw
  | cons p rest ih =>
    obtain ⟨b₀, w₀⟩ := p
    rw [relaxAll_cons]
    rcases List.mem_cons.mp hbw with heq | hmem
    · cases heq
      rw [if_pos hbu]
      by_cases hlt : (jget dist u).getD 0 + (w : JDist) < (jget dist b).getD ⊤
      · rw [if_pos hlt]
        refine le_trans (relaxAll_mono unv u rest _ _ b) ?_
        rw [jget_jset_self]
        exact le_refl _
      · rw [if_neg hlt]
        exact le_trans (relaxAll_mono unv u rest dist prev b) (not_lt.mp hlt)
    · by_cases hb0 : b₀ ∈ unv
      · rw [if_pos hb0]
        by_cases hlt : (jget dist u).getD 0 + (w₀ : JDist) < (jget dist b₀).getD ⊤
        · rw [if_pos hlt]
          have hb0u : b₀ ≠ u := fun he => hu (he ▸ hb0)
          have hdu : jget (jset dist b₀ ((jget dist u).getD 0 + (w₀ : JDist))) u =
              jget dist u := jget_jset_ne _ _ hb0u
          have hres := ih (jset dist b₀ ((jget dist u).getD 0 + (w₀ : JDist)))
            (jset prev b₀ (some u)) hmem
          rw [hdu] at hres
          exact hres
        · rw [if_neg hlt]
          exact ih dist prev hmem
      · rw [if_neg hb0]
        exact ih dist prev hmem

/-! ## Predecessor-chain invariant through the relaxation pass -/

/-- A good predecessor chain for `v`: rooted at the start node, following
`prev` pointers, duplicate-free, all nodes before the last settled and
registered, and its walk cost equal to `v`'s tentative distance. -/
def ChainGood (adj : JMap String (JMap String ℤ)) (ids : List String) (ns : String)
    (unv : List String) (dist : JMap String JDist)
    (prev : JMap String (Option String)) (v : String) : Prop :=
  ∃ l, PrevChain prev v l ∧ l.head? = some ns ∧ l.Nodup ∧
    (∀ x ∈ l.dropLast, x ∈ ids ∧ x ∉ unv) ∧
    walkCostD adj l = (jget dist v).getD ⊤

/-- Every node with a finite tentative distance has a good chain. -/
def ChainsOk (adj : JMap String (JMap String ℤ)) (ids : List String) (ns : String)
    (unv : List String) (dist : JMap String JDist)
    (prev : JMap String (Option String)) : Prop :=
  ∀ v, (jget dist v).getD ⊤ < ⊤ → ChainGood adj ids ns unv dist prev v

theorem relaxAll_chains (adj : JMap String (JMap String ℤ)) (ids : List String)
    (ns : String) (unv : List String) (u : String) (es : List (String × ℤ))
    (hu_unv : u ∉ unv) (hu_ids : u ∈ ids) :
    ∀ (dist : JMap String JDist) (prev : JMap String (Option String)),
      (∀ p ∈ es, jget2 adj u p.1 = some p.2) →
      (jget dist u).getD ⊤ < ⊤ →
      ChainsOk adj ids ns unv dist prev →
      ChainsOk adj ids ns unv (relaxAll unv u es dist prev).1
        (relaxAll unv u es dist prev).2 := by
  induction es with
  | nil =>
    intro dist prev _ _ hch
    exact hch
  | cons p rest ih =>
    obtain ⟨b, w⟩ := p
    intro dist prev hes hufin hch
    rw [relaxAll_cons]
    by_cases hb : b ∈ unv
    · by_cases hlt : (jget dist u).getD 0 + (w : JDist) < (jget dist b).getD ⊤
      · rw [if_pos hb, if_pos hlt]
        have hbu : b ≠ u := fun he => hu_unv (he ▸ hb)
        refine ih _ _ (fun q hq => hes q (List.mem_cons_of_mem _ hq)) ?_ ?_
        · rw [jget_jset_ne _ _ hbu]
          exact hufin
        · intro v hv
          by_cases hveq : v = b
          · subst hveq
            obtain ⟨du, hdu⟩ : ∃ x, jget dist u = some x := ⟨_, getD_top_of_lt_top hufin⟩
            obtain ⟨lu, hpc, hhead, hnodup, hsettled, hcost⟩ := hch u hufin
            have hlast := hpc.getLast_eq
            have hbnotin : v ∉ lu := by
              intro hmem
              rcases mem_split_last hlast hmem with h1 | h1
              · exact (hsettled v h1).2 hb
              · exact hu_unv (h1 ▸ hb)
            refine ⟨lu ++ [v], ?_, ?_, ?_, ?_, ?_⟩
            · exact PrevChain.step u v lu (by rw [jget_jset_self])
                (hpc.of_jset_not_mem hbnotin)
            · rw [List.head?_append_of_ne_nil _ hpc.ne_nil]
              exact hhead
            · rw [List.nodup_append]
              refine ⟨hnodup, List.nodup_singleton _, fun x hx hx' => ?_⟩
              rcases List.mem_singleton.mp hx' with rfl
              exact hbnotin hx
            · rw [List.dropLast_concat]
              intro x hx
              rcases mem_split_last hlast hx with h1 | h1
              · exact hsettled x h1
              · rw [h1]
                exact ⟨hu_ids, hu_unv⟩
            · rw [walkCostD_concat adj v hlast, hcost,
                stepD_eq_of_jget2 (hes (v, w) (List.mem_cons_self _ _)),
                jget_jset_self, hdu]
              rfl
          · have hdv : jget (jset dist b ((jget dist u).getD 0 + (w : JDist))) v =
                jget dist v := jget_jset_ne _ _ fun he => hveq he.symm
            rw [hdv] at hv
            obtain ⟨l, hpc, hhead, hnodup, hsettled, hcost⟩ := hch v hv
            have hlast := hpc.getLast_eq
            have hbnotin : b ∉ l := by
              intro hmem
              rcases mem_split_last hlast hmem with h1 | h1
              · exact (hsettled b h1).2 hb
              · exact hveq h1.symm
            refine ⟨l, hpc.of_jset_not_mem hbnotin, hhead, hnodup, hsettled, ?_⟩
            rw [hdv]
            exact hcost
      · rw [if_pos hb, if_neg hlt]
        exact ih dist prev (fun q hq => hes q (List.mem_cons_of_mem _ hq)) hufin hch
    · rw [if_neg hb]
      exact ih dist prev (fun q hq => hes q (List.mem_cons_of_mem _ hq)) hufin hch

/-! ## The Dijkstra loop invariant -/

/-- The loop invariant of `dijkstraLoop`: the unvisited set is a
duplicate-free subset of the registered ids still containing the
destination; the start keeps tentative distance `0`; every settled node's
tentative distance is a lower bound for every walk reaching it from the
start and its outgoing edges into the unvisited set are relaxed; and every
finite tentative distance is witnessed by a rooted predecessor chain. -/
structure DInv (gs : GraphState) (ns ne : String) (s : DState) : Prop where
  unv_sub : ∀ v ∈ s.unvisited, v ∈ idsOf gs
  unv_nodup : s.unvisited.Nodup
  end_mem : ne ∈ s.unvisited
  start_mem : ns ∈ idsOf gs
  dist_start : (jget s.dist ns).getD ⊤ = 0
  settled_opt : ∀ v ∈ idsOf gs, v ∉ s.unvisited →
    ∀ l, l.head? = some ns → l.getLast? = some v →
      (jget s.dist v).getD ⊤ ≤ walkCostD gs.adjacency l
  settled_rel : ∀ v ∈ idsOf gs, v ∉ s.unvisited →
    ∀ b w, jget2 gs.adjacency v b = some w → b ∈ s.unvisited →
      (jget s.dist b).getD ⊤ ≤ (jget s.dist v).getD ⊤ + (w : JDist)
  chains : ChainsOk gs.adjacency (idsOf gs) ns s.unvisited s.dist s.prev

/-- The pop lower bound: if `m` is below every unvisited tentative
distance, then `m` is below the cost of every walk from the start to an
unvisited node. -/
theorem walk_lower_bound {gs : GraphState} {ns ne : String} {s : DState}
    (hA : AdjOk gs) (hI : DInv gs ns ne s) (m : JDist)
    (hmin : ∀ v ∈ s.unvisited, m ≤ (jget s.dist v).getD ⊤) :
    ∀ (l : List String) (t : String), l.head? = some ns → l.getLast? = some t →
      t ∈ s.unvisited → m ≤ walkCostD gs.adjacency l := by
  intro l
  induction l using List.reverseRecOn with
  | nil =>
    intro t hh _ _
    simp at hh
  | append_singleton l' t' ihl =>
    intro t hh hl ht
    have ht' : t' = t := by simpa using hl
    subst ht'
    rcases eq_or_ne l' [] with rfl | hne
    · have hh' : t' = ns := by simpa using hh
      subst hh'
      have hm0 : m ≤ (jget s.dist t').getD ⊤ := hmin t' ht
      rw [hI.dist_start] at hm0
      show m ≤ walkCostD gs.adjacency [t']
      exact hm0
    · have hh' : l'.head? = some ns := by
        rwa [List.head?_append_of_ne_nil _ hne] at hh
      obtain ⟨x, hx⟩ : ∃ x, l'.getLast? = some x := by
        cases hcase : l'.getLast? with
        | none =>
          exact absurd (List.getLast?_isSome.mpr hne) (by rw [hcase]; simp)
        | some x => exact ⟨x, rfl⟩
      rw [walkCostD_concat _ t' hx]
      by_cases hxu : x ∈ s.unvisited
      · exact le_trans (ihl x hh' hx hxu)
          (le_add_of_nonneg_right (stepD_nonneg hA x t'))
      · by_cases hxids : x ∈ idsOf gs
        · cases hstep : jget2 gs.adjacency x t' with
          | none =>
            have hstepd : stepD gs.adjacency x t' = ⊤ := by
              unfold stepD
              rw [hstep]
            rw [hstepd, add_top]
            exact le_top
          | some w =>
            have hrel := hI.settled_rel x hxids hxu t' w hstep ht
            have hopt := hI.settled_opt x hxids hxu l' hh' hx
            calc m ≤ (jget s.dist t').getD ⊤ := hmin t' ht
            _ ≤ (jget s.dist x).getD ⊤ + (w : JDist) := hrel
            _ ≤ walkCostD gs.adjacency l' + (w : JDist) := add_le_add_right hopt _
            _ = walkCostD gs.adjacency l' + stepD gs.adjacency x t' := by
                rw [stepD_eq_of_jget2 hstep]
        · by_cases hcl : walkCostD gs.adjacency l' < ⊤
          · exact absurd
              (walk_mem_ids hA l' ns hh' hI.start_mem hcl x (List.mem_of_mem_getLast? hx))
              hxids
          · have hcl' : walkCostD gs.adjacency l' = ⊤ := top_le_iff.mp (not_lt.mp hcl)
            rw [hcl', top_add]
            exact le_top

/-- One non-breaking loop iteration (pop the scanned minimum, delete it
from the unvisited set, relax its neighbors) preserves the invariant. -/
theorem DInv_step {gs : GraphState} {ns ne : String} {s : DState}
    (hA : AdjOk gs) (hI : DInv gs ns ne s) {u : String} {m : JDist}
    (hscan : scanMin s.dist s.unvisited none ⊤ = (some u, m)) (hune : u ≠ ne) :
    DInv gs ns ne
      ⟨(relaxAll (s.unvisited.erase u) u ((jget gs.adjacency u).getD []) s.dist s.prev).1,
       (relaxAll (s.unvisited.erase u) u ((jget gs.adjacency u).getD []) s.dist s.prev).2,
       s.unvisited.erase u⟩ := by
  obtain ⟨humem, hdu, hmtop, hmin⟩ := scanMin_some hscan
  set unv' := s.unvisited.erase u with hunv'
  set es := (jget gs.adjacency u).getD [] with hesdef
  set res := relaxAll unv' u es s.dist s.prev with hres
  have hu_unv' : u ∉ unv' := hI.unv_nodup.not_mem_erase
  have hu_ids : u ∈ idsOf gs := hI.unv_sub u humem
  have hufin : (jget s.dist u).getD ⊤ < ⊤ := by
    rw [hdu]
    exact hmtop
  have hdsome : jget s.dist u = some m := by
    have := getD_top_of_lt_top hufin
    rw [hdu] at this
    exact this
  have hdu0 : (jget s.dist u).getD 0 = m := by
    rw [hdsome]
    rfl
  have hru : jget res.1 u = jget s.dist u :=
    relaxAll_u_dist unv' u es s.dist s.prev hu_unv'
  have hes : ∀ p ∈ es, jget2 gs.adjacency u p.1 = some p.2 := by
    intro p hp
    obtain ⟨b, w⟩ := p
    cases hj : jget gs.adjacency u with
    | none =>
      rw [hesdef, hj] at hp
      simp at hp
    | some mm =>
      rw [hesdef, hj] at hp
      exact adjOk_jget2_of_mem hA hj hp
  have hnot_unv' : ∀ v, v ≠ u → v ∉ unv' → v ∉ s.unvisited := by
    intro v hvne hv hvin
    exact hv ((hI.unv_nodup.mem_erase_iff).mpr ⟨hvne, hvin⟩)
  have hm0 : (0 : JDist) ≤ m := by
    obtain ⟨lu, _, _, _, _, hcost⟩ := hI.chains u hufin
    rw [hdu] at hcost
    rw [← hcost]
    exact walkCostD_nonneg hA lu
  refine ⟨?_, ?_, ?_, hI.start_mem, ?_, ?_, ?_, ?_⟩
  · intro v hv
    exact hI.unv_sub v (List.mem_of_mem_erase hv)
  · exact hI.unv_nodup.erase u
  · show ne ∈ unv'
    rw [hI.unv_nodup.mem_erase_iff]
    exact ⟨fun he => hune he.symm, hI.end_mem⟩
  · show (jget res.1 ns).getD ⊤ = 0
    have hmono := relaxAll_mono unv' u es s.dist s.prev ns
    rcases relaxAll_val unv' u es s.dist s.prev ns hu_unv' with h1 | h1
    · rw [h1]
      exact hI.dist_start
    · obtain ⟨w', hw1, hw2⟩ := h1
      have hw0 : (0 : ℤ) ≤ w' := (adjOk_entry hA (hes (ns, w') hw1)).2
      have hle : (jget res.1 ns).getD ⊤ ≤ 0 := by
        rw [← hI.dist_start]
        exact hmono
      have hge : (0 : JDist) ≤ (jget res.1 ns).getD ⊤ := by
        rw [hw2]
        show (0 : JDist) ≤ (jget s.dist u).getD 0 + (w' : JDist)
        rw [hdu0, ← add_zero (0 : JDist)]
        exact add_le_add hm0 (by exact_mod_cast hw0)
      exact le_antisymm hle hge
  · intro v hvids hv l hh hl
    by_cases hveq : v = u
    · show (jget res.1 v).getD ⊤ ≤ walkCostD gs.adjacency l
      rw [hveq, hru, hdu]
      exact walk_lower_bound hA hI m hmin l v hh hl (by rw [hveq]; exact humem)
    · have hvold : v ∉ s.unvisited := hnot_unv' v hveq hv
      show (jget res.1 v).getD ⊤ ≤ walkCostD gs.adjacency l
      rw [(relaxAll_off_unv unv' u es s.dist s.prev v hv).1]
      exact hI.settled_opt v hvids hvold l hh hl
  · intro v hvids hv b w hvb hbmem
    by_cases hveq : v = u
    · have hbw : (b, w) ∈ es := by
        unfold jget2 at hvb
        rw [hveq] at hvb
        cases hj : jget gs.adjacency u with
        | none =>
          rw [hj] at hvb
          simp at hvb
        | some mm =>
          rw [hj] at hvb
          simp only [Option.some_bind] at hvb
          rw [hesdef, hj]
          exact jget_mem hvb
      have hcov := relaxAll_cover unv' u es s.dist s.prev hu_unv' hbw hbmem
      show (jget res.1 b).getD ⊤ ≤ (jget res.1 v).getD ⊤ + (w : JDist)
      rw [hveq, hru, hdu]
      rw [hdu0] at hcov
      exact hcov
    · have hvold : v ∉ s.unvisited := hnot_unv' v hveq hv
      have hbold : b ∈ s.unvisited := List.mem_of_mem_erase hbmem
      show (jget res.1 b).getD ⊤ ≤ (jget res.1 v).getD ⊤ + (w : JDist)
      rw [(relaxAll_off_unv unv' u es s.dist s.prev v hv).1]
      calc (jget res.1 b).getD ⊤ ≤ (jget s.dist b).getD ⊤ :=
            relaxAll_mono unv' u es s.dist s.prev b
      _ ≤ (jget s.dist v).getD ⊤ + (w : JDist) :=
            hI.settled_rel v hvids hvold b w hvb hbold
  · have hchold : ChainsOk gs.adjacency (idsOf gs) ns unv' s.dist s.prev := by
      intro v hv
      obtain ⟨l, h1, h2, h3, h4, h5⟩ := hI.chains v hv
      refine ⟨l, h1, h2, h3, ?_, h5⟩
      intro x hx
      obtain ⟨hxi, hxu⟩ := h4 x hx
      exact ⟨hxi, fun hxm => hxu (List.mem_of_mem_erase hxm)⟩
    exact relaxAll_chains gs.adjacency (idsOf gs) ns unv' u es hu_unv' hu_ids
      s.dist s.prev hes hufin hchold

theorem dijkstraLoop_succ (adj : JMap String (JMap String ℤ)) (endId : String)
    (k : Nat) (s : DState) :
    dijkstraLoop adj endId (Nat.succ k) s =
      if s.unvisited = [] then s
      else
        match scanMin s.dist s.unvisited none ⊤ with
        | (none, _) => s
        | (some u, m) =>
          if m = ⊤ then s
          else if u = endId then s
          else
            let unv := s.unvisited.erase u
            let dp := relaxAll unv u ((jget adj u).getD []) s.dist s.prev
            dijkstraLoop adj endId k ⟨dp.1, dp.2, unv⟩ := rfl

theorem dijkstraLoop_succ_none (adj : JMap String (JMap String ℤ)) (endId : String)
    (k : Nat) (s : DState) {m : JDist}
    (h : scanMin s.dist s.unvisited none ⊤ = (none, m)) (hnil : s.unvisited ≠ []) :
    dijkstraLoop adj endId (Nat.succ k) s = s := by
  rw [dijkstraLoop_succ, if_neg hnil, h]

theorem dijkstraLoop_succ_some (adj : JMap String (JMap String ℤ)) (endId : String)
    (k : Nat) (s : DState) {u : String} {m : JDist}
    (h : scanMin s.dist s.unvisited none ⊤ = (some u, m)) (hnil : s.unvisited ≠ []) :
    dijkstraLoop adj endId (Nat.succ k) s =
      if m = ⊤ then s
      else if u = endId then s
      else dijkstraLoop adj endId k
        ⟨(relaxAll (s.unvisited.erase u) u ((jget adj u).getD []) s.dist s.prev).1,
         (relaxAll (s.unvisited.erase u) u ((jget adj u).getD []) s.dist s.prev).2,
         s.unvisited.erase u⟩ := by
  rw [dijkstraLoop_succ, if_neg hnil, h]

/-- Running the loop with enough fuel from an invariant state, when the
destination is reachable, exits with the invariant intact, a finite
tentative distance at the destination, and that distance minimal over the
remaining unvisited set. -/
theorem dijkstraLoop_reaches {gs : GraphState} {ns ne : String} (hA : AdjOk gs)
    (hreach : ReachableIn gs.adjacency ns ne) :
    ∀ (fuel : Nat) (s : DState), DInv gs ns ne s → s.unvisited.length ≤ fuel →
      DInv gs ns ne (dijkstraLoop gs.adjacency ne fuel s) ∧
      (jget (dijkstraLoop gs.adjacency ne fuel s).dist ne).getD ⊤ < ⊤ ∧
      (∀ v ∈ (dijkstraLoop gs.adjacency ne fuel s).unvisited,
        (jget (dijkstraLoop gs.adjacency ne fuel s).dist ne).getD ⊤ ≤
          (jget (dijkstraLoop gs.adjacency ne fuel s).dist v).getD ⊤) := by
  intro fuel
  induction fuel with
  | zero =>
    intro s hI hlen
    have hnil : s.unvisited = [] := List.length_eq_zero.mp (Nat.le_zero.mp hlen)
    exact absurd (hnil ▸ hI.end_mem) (List.not_mem_nil ne)
  | succ k ih =>
    intro s hI hlen
    have hne_nil : s.unvisited ≠ [] := fun he =>
      (List.not_mem_nil ne) (he ▸ hI.end_mem)
    rcases hscan : scanMin s.dist s.unvisited none ⊤ with ⟨o, m⟩
    cases o with
    | none =>
      exfalso
      obtain ⟨l, hh, hl, hcl⟩ := hreach
      have hall := scanMin_none hscan
      have hbound := walk_lower_bound hA hI ⊤ (fun v hv => (hall v hv).ge) l ne hh hl
        hI.end_mem
      exact absurd (lt_of_le_of_lt hbound hcl) (lt_irrefl _)
    | some u =>
      obtain ⟨humem, hdu, hmtop, hmin⟩ := scanMin_some hscan
      have hmne : ¬(m = ⊤) := fun he => absurd (he ▸ hmtop) (lt_irrefl (⊤ : JDist))
      rw [dijkstraLoop_succ_some gs.adjacency ne k s hscan hne_nil, if_neg hmne]
      by_cases hue : u = ne
      · rw [if_pos hue]
        refine ⟨hI, ?_, ?_⟩
        · rw [← hue, hdu]
          exact hmtop
        · intro v hv
          rw [← hue, hdu]
          exact hmin v hv
      · rw [if_neg hue]
        apply ih
        · exact DInv_step hA hI hscan hue
        · have hle := List.length_erase_of_mem humem
          rw [hle]
          have hpos : 1 ≤ s.unvisited.length := by
            cases hcase : s.unvisited with
            | nil => exact absurd hcase hne_nil
            | cons a l' => simp
          omega

/-! ## Main correctness of `findShortestPath` -/

theorem isWalk_of_cost_lt_top (adj : JMap String (JMap String ℤ)) :
    ∀ l, walkCostD adj l < ⊤ → IsWalk adj l := by
  intro l
  induction l with
  | nil => intro h; exact absurd h (lt_irrefl _)
  | cons x rest ih =>
    intro h
    cases rest with
    | nil => exact List.chain'_singleton x
    | cons y rest' =>
      have hparts := WithTop.add_lt_top.mp h
      obtain ⟨w, hw⟩ := stepD_lt_top hparts.1
      exact List.chain'_cons.mpr ⟨by rw [hw]; rfl, ih hparts.2⟩

/-- The Dijkstra state after the initialization loop and the start-distance
write. -/
def dijkstraInit (gs : GraphState) (ns : String) : DState :=
  ⟨jset (initDState gs.allNodes).dist ns 0, (initDState gs.allNodes).prev,
   (initDState gs.allNodes).unvisited⟩

/-- The Dijkstra state when the main loop exits. -/
def dijkstraRun (gs : GraphState) (ns ne : String) : DState :=
  dijkstraLoop gs.adjacency ne (dijkstraInit gs ns).unvisited.length (dijkstraInit gs ns)

/-- The reconstructed node sequence. -/
def dijkstraPath (gs : GraphState) (ns ne : String) : List String :=
  reconstruct (dijkstraRun gs ns ne).prev (gs.allNodes.length + 1) (some ne) []

theorem findShortestPath_eq (gs : GraphState) {startId endId ns ne : String}
    (hns : resolveId gs startId = some ns) (hne : resolveId gs endId = some ne) :
    findShortestPath gs startId endId =
      if ns = "" ∨ ne = "" then emptyResult
      else if (dijkstraPath gs ns ne).head? = some ns then
        { found := true
          path := dijkstraPath gs ns ne
          pathDetails := buildDetails gs.nodeMap (dijkstraPath gs ns ne)
          totalDistance := (jget (dijkstraRun gs ns ne).dist ne).getD 0
          steps := buildSteps gs.nodeMap gs.adjacency (dijkstraPath gs ns ne)
          crossesFloors :=
            decide ((sortStr (collectFloors gs.nodeMap (dijkstraPath gs ns ne))).length > 1)
          floorsTraversed := sortStr (collectFloors gs.nodeMap (dijkstraPath gs ns ne)) }
      else emptyResult := by
  unfold findShortestPath dijkstraPath dijkstraRun dijkstraInit
  rw [hns, hne]

theorem resolveId_mem_ids {gs : GraphState} {x ns : String}
    (h : resolveId gs x = some ns) : ns ∈ idsOf gs := by
  obtain ⟨n, hn, hid, _⟩ := resolveId_mem h
  rw [← hid]
  exact List.mem_map_of_mem _ hn

theorem dijkstraInit_inv (gs : GraphState) {startId endId ns ne : String}
    (hns : resolveId gs startId = some ns) (hne : resolveId gs endId = some ne) :
    DInv gs ns ne (dijkstraInit gs ns) := by
  have hnsids : ns ∈ idsOf gs := resolveId_mem_ids hns
  have hneids : ne ∈ idsOf gs := resolveId_mem_ids hne
  refine ⟨?_, ?_, ?_, hnsids, ?_, ?_, ?_, ?_⟩
  · intro v hv
    exact (initDState_unvisited gs.allNodes v).mp hv
  · exact initDState_nodup gs.allNodes
  · exact (initDState_unvisited gs.allNodes ne).mpr hneids
  · show (jget (jset (initDState gs.allNodes).dist ns 0) ns).getD ⊤ = 0
    rw [jget_jset_self]
    rfl
  · intro v hvids hv l _ _
    exact absurd ((initDState_unvisited gs.allNodes v).mpr hvids) hv
  · intro v hvids hv b w _ _
    exact absurd ((initDState_unvisited gs.allNodes v).mpr hvids) hv
  · intro v hv
    have hv' : (jget (jset (initDState gs.allNodes).dist ns 0) v).getD ⊤ < ⊤ := hv
    show ChainGood gs.adjacency (idsOf gs) ns (initDState gs.allNodes).unvisited
      (jset (initDState gs.allNodes).dist ns 0) (initDState gs.allNodes).prev v
    have hveq : v = ns := by
      by_contra hvne
      have hun : jget (jset (initDState gs.allNodes).dist ns 0) v =
          jget (initDState gs.allNodes).dist v :=
        jget_jset_ne _ _ fun he => hvne he.symm
      rw [hun, initDState_dist] at hv'
      by_cases hvmem : v ∈ gs.allNodes.map (·.id)
      · rw [if_pos hvmem] at hv'
        exact absurd hv' (lt_irrefl _)
      · rw [if_neg hvmem] at hv'
        exact absurd hv' (lt_irrefl _)
    subst hveq
    refine ⟨[v], ?_, rfl, List.nodup_singleton v, by simp, ?_⟩
    · refine PrevChain.base v ?_
      rw [initDState_prev]
      have hmem : v ∈ gs.allNodes.map (·.id) := hnsids
      rw [if_pos hmem]
    · show (0 : JDist) = (jget (jset (initDState gs.allNodes).dist v 0) v).getD ⊤
      rw [jget_jset_self]
      rfl

/-- The bundle of facts delivered by a successful `findShortestPath` run. -/
structure FSPGood (gs : GraphState) (ns ne : String) (r : PathResult) : Prop where
  found : r.found = true
  head : r.path.head? = some ns
  last : r.path.getLast? = some ne
  walk : IsWalk gs.adjacency r.path
  cost : walkCostD gs.adjacency r.path = r.totalDistance
  fin : r.totalDistance < ⊤
  minimal : ∀ l, l.head? = some ns → l.getLast? = some ne →
    r.totalDistance ≤ walkCostD gs.adjacency l
  path_ids : ∀ x ∈ r.path, x ∈ idsOf gs
  details_eq : r.pathDetails = buildDetails gs.nodeMap r.path
  steps_eq : r.steps = buildSteps gs.nodeMap gs.adjacency r.path
  floors_eq : r.floorsTraversed = sortStr (collectFloors gs.nodeMap r.path)
  crosses_eq : r.crossesFloors = decide (r.floorsTraversed.length > 1)

theorem findShortestPath_spec (gs : GraphState) {startId endId ns ne : String}
    (hA : AdjOk gs) (hns : resolveId gs startId = some ns)
    (hne : resolveId gs endId = some ne) (hns0 : ns ≠ "") (hne0 : ne ≠ "")
    (hreach : ReachableIn gs.adjacency ns ne) :
    FSPGood gs ns ne (findShortestPath gs startId endId) := by
  have hneids : ne ∈ idsOf gs := resolveId_mem_ids hne
  obtain ⟨hI', hfin', hmin'⟩ := dijkstraLoop_reaches hA hreach
    (dijkstraInit gs ns).unvisited.length (dijkstraInit gs ns)
    (dijkstraInit_inv gs hns hne) (le_refl _)
  have hrun : dijkstraRun gs ns ne =
      dijkstraLoop gs.adjacency ne (dijkstraInit gs ns).unvisited.length
        (dijkstraInit gs ns) := rfl
  rw [← hrun] at hI' hfin' hmin'
  obtain ⟨l, hpc, hhead, hnodup, hsettled, hcost⟩ := hI'.chains ne hfin'
  have hlast := hpc.getLast_eq
  have hsub : ∀ x ∈ l, x ∈ idsOf gs := by
    intro x hx
    rcases mem_split_last hlast hx with h1 | h1
    · exact (hsettled x h1).1
    · rw [h1]
      exact hneids
  have hlen : l.length ≤ gs.allNodes.length := by
    calc l.length = l.toFinset.card := (List.toFinset_card_of_nodup hnodup).symm
    _ ≤ (idsOf gs).toFinset.card :=
        Finset.card_le_card fun x hx =>
          List.mem_toFinset.mpr (hsub x (List.mem_toFinset.mp hx))
    _ ≤ (idsOf gs).length := List.toFinset_card_le _
    _ = gs.allNodes.length := List.length_map _ _
  have hpath : dijkstraPath gs ns ne = l := by
    unfold dijkstraPath
    rw [reconstruct_of_chain hpc [] (gs.allNodes.length + 1) (by omega)]
    exact List.append_nil l
  have hcond : (dijkstraPath gs ns ne).head? = some ns := by
    rw [hpath]
    exact hhead
  rw [findShortestPath_eq gs hns hne, if_neg (fun h => h.elim hns0 hne0), if_pos hcond]
  have hdsome : jget (dijkstraRun gs ns ne).dist ne =
      some ((jget (dijkstraRun gs ns ne).dist ne).getD ⊤) := getD_top_of_lt_top hfin'
  have htd : (jget (dijkstraRun gs ns ne).dist ne).getD 0 =
      (jget (dijkstraRun gs ns ne).dist ne).getD ⊤ := by
    rw [hdsome]
    rfl
  refine ⟨rfl, hcond, ?_, ?_, ?_, ?_, ?_, ?_, rfl, rfl, rfl, rfl⟩
  · show (dijkstraPath gs ns ne).getLast? = some ne
    rw [hpath]
    exact hlast
  · show IsWalk gs.adjacency (dijkstraPath gs ns ne)
    rw [hpath]
    refine isWalk_of_cost_lt_top _ _ ?_
    rw [hcost]
    exact hfin'
  · show walkCostD gs.adjacency (dijkstraPath gs ns ne) =
      (jget (dijkstraRun gs ns ne).dist ne).getD 0
    rw [hpath, htd]
    exact hcost
  · show (jget (dijkstraRun gs ns ne).dist ne).getD 0 < ⊤
    rw [htd]
    exact hfin'
  · intro l' hh' hl'
    show (jget (dijkstraRun gs ns ne).dist ne).getD 0 ≤ walkCostD gs.adjacency l'
    rw [htd]
    exact walk_lower_bound hA hI' _ hmin' l' ne hh' hl' hI'.end_mem
  · show ∀ x ∈ dijkstraPath gs ns ne, x ∈ idsOf gs
    rw [hpath]
    exact hsub

/-! ## Decidability of the well-formedness predicates (for concrete witnesses) -/

instance (gs : GraphState) : Decidable (AdjOk gs) := by
  unfold AdjOk
  exact inferInstance

instance (gs : GraphState) : Decidable (NodeMapOk gs) := by
  unfold NodeMapOk
  exact inferInstance

instance (gs : GraphState) : Decidable (LcInj gs) := by
  unfold LcInj
  exact inferInstance

/-! ## C1: correctness of `findShortestPath` on resolvable, reachable pairs -/

/-- C1: for every pair of caller-supplied identifiers that both resolve
(case-insensitively) to nodes of the assembled graph and such that the end
node is reachable from the start node, `findShortestPath` returns
`found:true` with `path` a valid walk in the adjacency mapping from the
resolved start to the resolved end, and `totalDistance` equal to the
minimum, over all walks from start to end, of the sum of traversed
adjacency edge weights.  (The graph hypotheses `AdjOk` — non-negative
weights and registered endpoints — are the specification's §3 data-model
invariants, taken as hypotheses because the floor-data files are not part
of the sources; the nonempty-identifier hypotheses reflect JavaScript
string truthiness in the resolution guard.) -/
theorem C1_shortest_path_correct (gs : GraphState) (startId endId ns ne : String)
    (hA : AdjOk gs) (hns : resolveId gs startId = some ns)
    (hne : resolveId gs endId = some ne) (hns0 : ns ≠ "") (hne0 : ne ≠ "")
    (hreach : ReachableIn gs.adjacency ns ne) :
    (findShortestPath gs startId endId).found = true ∧
    IsWalk gs.adjacency (findShortestPath gs startId endId).path ∧
    (findShortestPath gs startId endId).path.head? = some ns ∧
    (findShortestPath gs startId endId).path.getLast? = some ne ∧
    walkCostD gs.adjacency (findShortestPath gs startId endId).path =
      (findShortestPath gs startId endId).totalDistance ∧
    ∀ l, l.head? = some ns → l.getLast? = some ne →
      (findShortestPath gs startId endId).totalDistance ≤ walkCostD gs.adjacency l := by
  have h := findShortestPath_spec gs hA hns hne hns0 hne0 hreach
  exact ⟨h.found, h.walk, h.head, h.last, h.cost, h.minimal⟩

/-- A small two-floor witness data set: floor slot 0 holds an office and a
stairwell, slot 1 the matching stairwell and a seminar room; graph assembly
synthesizes the stairwell edge `0K041 ↔ 1K041`. -/
def wFD0 : FloorData :=
  ⟨[{ id := "0A010", room_type := some "Office" },
    { id := "0K041", room_type := some "Stairwell" }],
   [{ source := "0A010", target := "0K041", distance_m := some 5 }]⟩

def wFD1 : FloorData :=
  ⟨[{ id := "1K041", room_type := some "Stairwell" },
    { id := "1A020", room_type := some "Seminar Room" }],
   [{ source := "1K041", target := "1A020", distance_m := some 8 }]⟩

def emptyFD : FloorData := ⟨[], []⟩

def wGS : GraphState :=
  initializeGraph (mkFloors wFD0 wFD1 emptyFD emptyFD emptyFD emptyFD)

theorem C1_witness :
    AdjOk wGS ∧ resolveId wGS "0a010" = some "0A010" ∧
      ReachableIn wGS.adjacency "0A010" "1A020" ∧
      (findShortestPath wGS "0a010" "1a020").found = true ∧
      (findShortestPath wGS "0a010" "1a020").totalDistance = ((28 : ℤ) : JDist) :=
  have hreach : ReachableIn wGS.adjacency "0A010" "1A020" :=
    ⟨["0A010", "0K041", "1K041", "1A020"], rfl, rfl, by decide⟩
  have h := C1_shortest_path_correct wGS "0a010" "1a020" "0A010" "1A020" (by decide)
    (by decide) (by decide) (by decide) (by decide) hreach
  ⟨by decide, by decide, hreach, h.1, by decide⟩

/-! ## C4: the degenerate self-query -/

/-- A one-node graph used to refute the literal reading of C4: the caller's
identifier `"0a010"` resolves (case-insensitively) to the node `"0A010"`,
but the returned path holds the canonical id, not the caller's spelling. -/
def cexGS4 : GraphState :=
  initializeGraph (mkFloors ⟨[{ id := "0A010" }], []⟩ emptyFD emptyFD emptyFD emptyFD emptyFD)

/-- C4 counterexample: `findShortestPath(n, n)` for an identifier `n` that
resolves only up to case returns the canonical id in `path`, so `path` is
not `[n]` as literally claimed. -/
theorem C4_counterexample :
    (findShortestPath cexGS4 "0a010" "0a010").found = true ∧
    (findShortestPath cexGS4 "0a010" "0a010").path ≠ ["0a010"] ∧
    (findShortestPath cexGS4 "0a010" "0a010").path = ["0A010"] := by
  refine ⟨by decide, by decide, by decide⟩

/-- C4 amended: for every identifier `n` that resolves (case-insensitively)
to a node of the assembled graph with nonempty canonical id `mid`,
`findShortestPath(n, n)` returns `found:true`, `path = [mid]` (the
canonical stored id, equal to `n` whenever `n` is spelled canonically),
`totalDistance = 0` and `steps = []`. -/
theorem C4_amended_self_path (gs : GraphState) (n mid : String)
    (hres : resolveId gs n = some mid) (h0 : mid ≠ "") :
    (findShortestPath gs n n).found = true ∧
    (findShortestPath gs n n).path = [mid] ∧
    (findShortestPath gs n n).totalDistance = 0 ∧
    (findShortestPath gs n n).steps = [] := by
  have hmid_ids : mid ∈ idsOf gs := resolveId_mem_ids hres
  have hmid_map : mid ∈ gs.allNodes.map (·.id) := hmid_ids
  have hmem : mid ∈ (dijkstraInit gs mid).unvisited :=
    (initDState_unvisited gs.allNodes mid).mpr hmid_map
  have hs1d : ∀ v, jget (dijkstraInit gs mid).dist v =
      if mid = v then some 0
      else if v ∈ gs.allNodes.map (·.id) then some ⊤ else none := by
    intro v
    show jget (jset (initDState gs.allNodes).dist mid 0) v = _
    rw [jget_jset, initDState_dist]
  have hscan : scanMin (dijkstraInit gs mid).dist (dijkstraInit gs mid).unvisited none ⊤ =
      (some mid, 0) := by
    rcases hsc : scanMin (dijkstraInit gs mid).dist (dijkstraInit gs mid).unvisited none ⊤
      with ⟨o, m⟩
    cases o with
    | none =>
      exfalso
      have h0' := scanMin_none hsc mid hmem
      rw [hs1d mid, if_pos rfl] at h0'
      exact absurd h0' (by decide)
    | some u =>
      obtain ⟨humem, hdu, hmtop, hmin⟩ := scanMin_some hsc
      have hueq : u = mid := by
        by_contra hune
        have hids : u ∈ gs.allNodes.map (·.id) :=
          (initDState_unvisited gs.allNodes u).mp humem
        have htop : (jget (dijkstraInit gs mid).dist u).getD ⊤ = ⊤ := by
          rw [hs1d u, if_neg (fun he => hune he.symm), if_pos hids]
          rfl
        rw [htop] at hdu
        rw [← hdu] at hmtop
        exact absurd hmtop (lt_irrefl _)
      subst hueq
      have hmeq : m = 0 := by
        rw [hs1d u, if_pos rfl] at hdu
        exact hdu.symm
      rw [hmeq]
  have hnil : (dijkstraInit gs mid).unvisited ≠ [] := by
    intro he
    rw [he] at hmem
    exact List.not_mem_nil mid hmem
  have hrun : dijkstraRun gs mid mid = dijkstraInit gs mid := by
    unfold dijkstraRun
    cases hfuel : (dijkstraInit gs mid).unvisited.length with
    | zero => exact absurd (List.length_eq_zero.mp hfuel) hnil
    | succ k =>
      rw [dijkstraLoop_succ_some gs.adjacency mid k (dijkstraInit gs mid) hscan hnil,
        if_neg (by decide : ¬((0 : JDist) = ⊤)), if_pos rfl]
  have hchain : PrevChain (dijkstraInit gs mid).prev mid [mid] := by
    refine PrevChain.base mid ?_
    show jget (initDState gs.allNodes).prev mid = some none
    rw [initDState_prev, if_pos hmid_map]
  have hpath : dijkstraPath gs mid mid = [mid] := by
    unfold dijkstraPath
    rw [hrun, reconstruct_of_chain hchain [] (gs.allNodes.length + 1) (by simp)]
    simp
  rw [findShortestPath_eq gs hres hres, if_neg (fun h => h.elim h0 h0),
    if_pos (by rw [hpath]; rfl : (dijkstraPath gs mid mid).head? = some mid)]
  refine ⟨rfl, hpath, ?_, ?_⟩
  · show (jget (dijkstraRun gs mid mid).dist mid).getD 0 = 0
    rw [hrun, hs1d mid, if_pos rfl]
    rfl
  · show buildSteps gs.nodeMap gs.adjacency (dijkstraPath gs mid mid) = []
    rw [hpath]
    rfl

theorem C4_witness :
    resolveId cexGS4 "0a010" = some "0A010" ∧ ("0A010" : String) ≠ "" ∧
      ((findShortestPath cexGS4 "0a010" "0a010").found = true ∧
       (findShortestPath cexGS4 "0a010" "0a010").path = ["0A010"] ∧
       (findShortestPath cexGS4 "0a010" "0a010").totalDistance = 0 ∧
       (findShortestPath cexGS4 "0a010" "0a010").steps = []) :=
  ⟨by decide, by decide,
    C4_amended_self_path cexGS4 "0a010" "0A010" (by decide) (by decide)⟩

theorem C5_witness :
    (∀ n ∈ wGS.allNodes, jsLower n.id ≠ jsLower "ZZZ999") ∧
      ((findShortestPath wGS "ZZZ999" "0A010").found = false ∧
       (findShortestPath wGS "ZZZ999" "0A010").path = [] ∧
       (findShortestPath wGS "ZZZ999" "0A010").totalDistance = 0) :=
  have hno : ∀ n ∈ wGS.allNodes, jsLower n.id ≠ jsLower "ZZZ999" := by decide
  have h := C5_unresolved_identifier wGS "ZZZ999" "0A010" (Or.inl hno)
  ⟨hno, h.1, h.2.1, h.2.2.2.2.2.1⟩

/-! ## C8: floor-change marking and `crossesFloors` -/

theorem buildSteps_eq_zip (nm : JMap String NormalizedNode)
    (adj : JMap String (JMap String ℤ)) :
    ∀ l, buildSteps nm adj l = (l.zip l.tail).map fun p => mkStep nm adj p.1 p.2 := by
  intro l
  induction l with
  | nil => rfl
  | cons x rest ih =>
    cases rest with
    | nil => rfl
    | cons y rest' =>
      show mkStep nm adj x y :: buildSteps nm adj (y :: rest') = _
      rw [ih]
      rfl

theorem collectFloors_fold (nm : JMap String NormalizedNode) :
    ∀ (path : List String) (acc : List String),
      (∀ y, y ∈ path.foldl
          (fun acc x => match jget nm x with | some n => jsAdd acc n.floor | none => acc)
          acc ↔
        y ∈ acc ∨ y ∈ path.filterMap fun x => (jget nm x).map (·.floor)) ∧
      (acc.Nodup → (path.foldl
          (fun acc x => match jget nm x with | some n => jsAdd acc n.floor | none => acc)
          acc).Nodup) := by
  intro path
  induction path with
  | nil =>
    intro acc
    simp
  | cons x rest ih =>
    intro acc
    cases hx : jget nm x with
    | none =>
      obtain ⟨ih1, ih2⟩ := ih acc
      constructor
      · intro y
        rw [List.foldl_cons]
        show y ∈ List.foldl _ (match jget nm x with
            | some n => jsAdd acc n.floor | none => acc) rest ↔ _
        rw [hx]
        rw [List.filterMap_cons]
        rw [hx]
        exact ih1 y
      · intro hnd
        rw [List.foldl_cons]
        show (List.foldl _ (match jget nm x with
            | some n => jsAdd acc n.floor | none => acc) rest).Nodup
        rw [hx]
        exact ih2 hnd
    | some n =>
      obtain ⟨ih1, ih2⟩ := ih (jsAdd acc n.floor)
      constructor
      · intro y
        rw [List.foldl_cons]
        show y ∈ List.foldl _ (match jget nm x with
            | some n => jsAdd acc n.floor | none => acc) rest ↔ _
        rw [hx]
        rw [List.filterMap_cons, hx]
        rw [ih1 y, mem_jsAdd]
        simp only [Option.map_some', List.mem_cons]
        tauto
      · intro hnd
        rw [List.foldl_cons]
        show (List.foldl _ (match jget nm x with
            | some n => jsAdd acc n.floor | none => acc) rest).Nodup
        rw [hx]
        exact ih2 (nodup_jsAdd _ _ hnd)

theorem collectFloors_card (nm : JMap String NormalizedNode) (path : List String) :
    (collectFloors nm path).length =
      (path.filterMap fun x => (jget nm x).map (·.floor)).toFinset.card := by
  obtain ⟨h1, h2⟩ := collectFloors_fold nm path []
  have hnd : (collectFloors nm path).Nodup := h2 List.nodup_nil
  have hmem : ∀ y, y ∈ collectFloors nm path ↔
      y ∈ path.filterMap fun x => (jget nm x).map (·.floor) := by
    intro y
    rw [show collectFloors nm path = path.foldl
      (fun acc x => match jget nm x with | some n => jsAdd acc n.floor | none => acc) []
      from rfl]
    rw [h1 y]
    simp
  calc (collectFloors nm path).length = (collectFloors nm path).toFinset.card :=
      (List.toFinset_card_of_nodup hnd).symm
  _ = (path.filterMap fun x => (jget nm x).map (·.floor)).toFinset.card := by
      congr 1
      ext y
      rw [List.mem_toFinset, List.mem_toFinset]
      exact hmem y

/-- C8: in every found `PathResult`, a step has `isFloorChange` true exactly
when the floor attributes of its two endpoint nodes differ, and
`crossesFloors` is true exactly when more than one distinct floor appears
among the path's nodes. -/
theorem C8_floor_change_semantics (gs : GraphState) (startId endId ns ne : String)
    (hA : AdjOk gs) (hN : NodeMapOk gs) (hns : resolveId gs startId = some ns)
    (hne : resolveId gs endId = some ne) (hns0 : ns ≠ "") (hne0 : ne ≠ "")
    (hreach : ReachableIn gs.adjacency ns ne) :
    (∀ st ∈ (findShortestPath gs startId endId).steps,
      ∃ nf nt, jget gs.nodeMap st.fromId = some nf ∧ jget gs.nodeMap st.toId = some nt ∧
        (st.isFloorChange = true ↔ nf.floor ≠ nt.floor)) ∧
    ((findShortestPath gs startId endId).crossesFloors = true ↔
      1 < ((findShortestPath gs startId endId).path.filterMap
            fun x => (jget gs.nodeMap x).map (·.floor)).toFinset.card) := by
  have h := findShortestPath_spec gs hA hns hne hns0 hne0 hreach
  have hlookup : ∀ x ∈ idsOf gs, ∃ nd, jget gs.nodeMap x = some nd := by
    intro x hx
    obtain ⟨n, hn, hid⟩ := List.mem_map.mp hx
    have := hN.2 n hn
    unfold jhas at this
    cases hj : jget gs.nodeMap n.id with
    | none => rw [hj] at this; simp at this
    | some nd => exact ⟨nd, by rw [← hid]; exact hj⟩
  constructor
  · intro st hst
    rw [h.steps_eq, buildSteps_eq_zip] at hst
    obtain ⟨p, hp, hpe⟩ := List.mem_map.mp hst
    obtain ⟨hx, hy⟩ := List.of_mem_zip hp
    have hyl : p.2 ∈ (findShortestPath gs startId endId).path :=
      List.mem_of_mem_tail hy
    obtain ⟨nf, hnf⟩ := hlookup p.1 (h.path_ids p.1 hx)
    obtain ⟨nt, hnt⟩ := hlookup p.2 (h.path_ids p.2 hyl)
    subst hpe
    refine ⟨nf, nt, ?_, ?_, ?_⟩
    · show jget gs.nodeMap p.1 = some nf
      exact hnf
    · show jget gs.nodeMap p.2 = some nt
      exact hnt
    · show (mkStep gs.nodeMap gs.adjacency p.1 p.2).isFloorChange = true ↔ nf.floor ≠ nt.floor
      unfold mkStep
      rw [hnf, hnt]
      simp
  · rw [h.crosses_eq, h.floors_eq, length_sortStr, collectFloors_card]
    rw [decide_eq_true_eq]

theorem C8_witness :
    AdjOk wGS ∧ NodeMapOk wGS ∧
      ((∀ st ∈ (findShortestPath wGS "0a010" "1a020").steps,
        ∃ nf nt, jget wGS.nodeMap st.fromId = some nf ∧
          jget wGS.nodeMap st.toId = some nt ∧
          (st.isFloorChange = true ↔ nf.floor ≠ nt.floor)) ∧
      ((findShortestPath wGS "0a010" "1a020").crossesFloors = true ↔
        1 < ((findShortestPath wGS "0a010" "1a020").path.filterMap
              fun x => (jget wGS.nodeMap x).map (·.floor)).toFinset.card)) :=
  ⟨by decide, by decide,
    C8_floor_change_semantics wGS "0a010" "1a020" "0A010" "1A020" (by decide) (by decide)
      (by decide) (by decide) (by decide) (by decide)
      ⟨["0A010", "0K041", "1K041", "1A020"], rfl, rfl, by decide⟩⟩

/-! ## C2: same-floor preference of `findNearestOfTypeSameFloor` -/

theorem resolveId_of_match {gs : GraphState} (hinj : LcInj gs) {n : NormalizedNode}
    {x : String} (hn : n ∈ gs.allNodes) (hx : jsLower n.id = jsLower x) :
    resolveId gs x = some n.id := by
  unfold resolveId
  cases hf : gs.allNodes.find? fun m => jsLower m.id == jsLower x with
  | none =>
    rw [List.find?_eq_none] at hf
    exact absurd (by simp [hx] : (jsLower n.id == jsLower x) = true) (hf n hn)
  | some m =>
    have hp := List.find?_some hf
    simp only [beq_iff_eq] at hp
    have hmn : m = n := hinj m (List.mem_of_find?_eq_some hf) n hn (by rw [hp, hx])
    rw [hmn]
    rfl

theorem bestOf_fold_spec (gs : GraphState) (startId : String) :
    ∀ (rooms : List NodeInfo) (acc : Option PathResult),
      (∀ q, rooms.foldl
          (fun best room =>
            let p := findShortestPath gs startId room.id
            if p.found then
              match best with
              | none => some p
              | some b => if p.totalDistance < b.totalDistance then some p else some b
            else best) acc = some q →
        acc = some q ∨ (q.found = true ∧
          ∃ room ∈ rooms, q = findShortestPath gs startId room.id)) ∧
      (rooms.foldl
          (fun best room =>
            let p := findShortestPath gs startId room.id
            if p.found then
              match best with
              | none => some p
              | some b => if p.totalDistance < b.totalDistance then some p else some b
            else best) acc = none →
        acc = none ∧ ∀ room ∈ rooms, (findShortestPath gs startId room.id).found = false) := by
  intro rooms
  induction rooms with
  | nil =>
    intro acc
    exact ⟨fun q h => Or.inl h, fun h => ⟨h, by simp⟩⟩
  | cons room rest ih =>
    intro acc
    set p := findShortestPath gs startId room.id with hp
    set acc' := (if p.found then
        match acc with
        | none => some p
        | some b => if p.totalDistance < b.totalDistance then some p else some b
      else acc) with hacc'
    obtain ⟨ih1, ih2⟩ := ih acc'
    constructor
    · intro q hq
      rcases ih1 q hq with h1 | h1
      · rw [hacc'] at h1
        by_cases hf : p.found
        · rw [if_pos hf] at h1
          cases acc with
          | none =>
            have h1' : some p = some q := h1
            cases h1'
            exact Or.inr ⟨hf, room, List.mem_cons_self _ _, rfl⟩
          | some b =>
            have h1' : (if p.totalDistance < b.totalDistance then some p else some b) =
                some q := h1
            by_cases hlt : p.totalDistance < b.totalDistance
            · rw [if_pos hlt] at h1'
              cases h1'
              exact Or.inr ⟨hf, room, List.mem_cons_self _ _, rfl⟩
            · rw [if_neg hlt] at h1'
              exact Or.inl h1'
        · rw [if_neg hf] at h1
          exact Or.inl h1
      · obtain ⟨hqf, room', hr', he'⟩ := h1
        exact Or.inr ⟨hqf, room', List.mem_cons_of_mem _ hr', he'⟩
    · intro hnone
      obtain ⟨hacc_none, hrest⟩ := ih2 hnone
      rw [hacc'] at hacc_none
      by_cases hf : p.found
      · rw [if_pos hf] at hacc_none
        cases acc with
        | none =>
          have h' : some p = none := hacc_none
          cases h'
        | some b =>
          have h' : (if p.totalDistance < b.totalDistance then some p else some b) =
              none := hacc_none
          by_cases hlt : p.totalDistance < b.totalDistance
          · rw [if_pos hlt] at h'
            cases h'
          · rw [if_neg hlt] at h'
            cases h'
      · rw [if_neg hf] at hacc_none
        refine ⟨hacc_none, ?_⟩
        intro r hr
        rcases List.mem_cons.mp hr with rfl | hr'
        · exact Bool.not_eq_true _ ▸ (by simpa using hf)
        · exact hrest r hr'

theorem bestOf_eq_fold (gs : GraphState) (startId : String) (rooms : List NodeInfo) :
    bestOf gs startId rooms = rooms.foldl
      (fun best room =>
        let p := findShortestPath gs startId room.id
        if p.found then
          match best with
          | none => some p
          | some b => if p.totalDistance < b.totalDistance then some p else some b
        else best) none := rfl

theorem bestOf_some_of_found {gs : GraphState} {startId : String}
    {rooms : List NodeInfo}
    (h : ∃ room ∈ rooms, (findShortestPath gs startId room.id).found = true) :
    ∃ p, bestOf gs startId rooms = some p := by
  cases hb : bestOf gs startId rooms with
  | some p => exact ⟨p, rfl⟩
  | none =>
    rw [bestOf_eq_fold] at hb
    obtain ⟨_, hall⟩ := (bestOf_fold_spec gs startId rooms none).2 hb
    obtain ⟨room, hr, hf⟩ := h
    rw [hall room hr] at hf
    cases hf

theorem bestOf_mem {gs : GraphState} {startId : String} {rooms : List NodeInfo}
    {p : PathResult} (h : bestOf gs startId rooms = some p) :
    p.found = true ∧ ∃ room ∈ rooms, p = findShortestPath gs startId room.id := by
  rw [bestOf_eq_fold] at h
  rcases (bestOf_fold_spec gs startId rooms none).1 p h with h1 | h1
  · cases h1
  · exact h1

theorem mem_getRoomsByTypeOnFloor {gs : GraphState} {r : NormalizedNode}
    {roomType floor : String} (hr : r ∈ gs.allNodes)
    (ht : jsIncludes (jsLower r.roomType) (jsLower roomType) = true)
    (hf : r.floor = floor) :
    projInfo r ∈ getRoomsByTypeOnFloor gs roomType floor := by
  unfold getRoomsByTypeOnFloor
  exact List.mem_map_of_mem _ (List.mem_filter.mpr ⟨hr, by simp [ht, hf]⟩)

theorem of_mem_getRoomsByTypeOnFloor {gs : GraphState} {roomType floor : String}
    {ri : NodeInfo} (h : ri ∈ getRoomsByTypeOnFloor gs roomType floor) :
    ∃ n ∈ gs.allNodes, ri = projInfo n ∧ n.floor = floor := by
  unfold getRoomsByTypeOnFloor at h
  obtain ⟨n, hn, rfl⟩ := List.mem_map.mp h
  obtain ⟨hmem, hcond⟩ := List.mem_filter.mp hn
  simp only [Bool.and_eq_true, beq_iff_eq] at hcond
  exact ⟨n, hmem, rfl, hcond.2⟩

theorem findShortestPath_found_last {gs : GraphState} {a b : String}
    (h : (findShortestPath gs a b).found = true) :
    ∃ ne, resolveId gs b = some ne ∧
      (findShortestPath gs a b).path.getLast? = some ne := by
  cases hra : resolveId gs a with
  | none =>
    have h' : (findShortestPath gs a b).found = false := by
      unfold findShortestPath
      rw [hra]
      cases resolveId gs b <;> rfl
    rw [h'] at h
    cases h
  | some ns =>
    cases hrb : resolveId gs b with
    | none =>
      have h' : (findShortestPath gs a b).found = false := by
        unfold findShortestPath
        rw [hra, hrb]
        rfl
      rw [h'] at h
      cases h
    | some ne =>
      refine ⟨ne, rfl, ?_⟩
      rw [findShortestPath_eq gs hra hrb] at h ⊢
      by_cases h0 : ns = "" ∨ ne = ""
      · rw [if_pos h0] at h
        cases h
      · rw [if_neg h0] at h ⊢
        by_cases hh : (dijkstraPath gs ns ne).head? = some ns
        · rw [if_pos hh]
          show (dijkstraPath gs ns ne).getLast? = some ne
          unfold dijkstraPath
          rw [reconstruct_getLast]
          rfl
        · rw [if_neg hh] at h
          cases h

/-- C2: `findNearestOfTypeSameFloor(startId, type)` never returns a result whose
destination lies on a different floor than the start node whenever some room of
the requested type on the start node's own floor is reachable from the start:
the same-floor candidate list then yields a found path, so the function returns
the best same-floor path and never falls back to the unrestricted search.  The
start node `s` is the one the code resolves via
`nodeMap.get(startId.toUpperCase()) ?? nodeMap.get(startId)`. -/
theorem C2_nearest_same_floor (gs : GraphState) (startId roomType : String)
    (s : NormalizedNode)
    (hA : AdjOk gs) (hN : NodeMapOk gs) (hinj : LcInj gs)
    (hstart : (jget gs.nodeMap (jsUpper startId)).orElse
      (fun _ => jget gs.nodeMap startId) = some s)
    (hs0 : s.id ≠ "")
    (hcand : ∃ r ∈ gs.allNodes,
      jsIncludes (jsLower r.roomType) (jsLower roomType) = true ∧
      r.floor = s.floor ∧ r.id ≠ "" ∧ ReachableIn gs.adjacency s.id r.id) :
    ∃ p, findNearestOfTypeSameFloor gs startId roomType = some p ∧
      ∃ eid nd, p.path.getLast? = some eid ∧
        jget gs.nodeMap eid = some nd ∧ nd.floor = s.floor := by
  have hsmem : s ∈ gs.allNodes ∧ jsLower s.id = jsLower startId := by
    cases hj : jget gs.nodeMap (jsUpper startId) with
    | some s1 =>
      rw [hj] at hstart
      have h' : some s1 = some s := hstart
      have h2 : s1 = s := Option.some.inj h'
      subst h2
      obtain ⟨hm, hid⟩ := hN.1 _ (jget_mem hj)
      exact ⟨hm, by rw [hid, jsLower_jsUpper]⟩
    | none =>
      rw [hj] at hstart
      have h' : jget gs.nodeMap startId = some s := hstart
      obtain ⟨hm, hid⟩ := hN.1 _ (jget_mem h')
      exact ⟨hm, by rw [hid]⟩
  obtain ⟨hsm, hsl⟩ := hsmem
  have hrs : resolveId gs startId = some s.id := resolveId_of_match hinj hsm hsl
  obtain ⟨r, hrmem, hrt, hrf, hr0, hreach⟩ := hcand
  have hre : resolveId gs r.id = some r.id := resolveId_self hinj hrmem
  have hgood := findShortestPath_spec gs hA hrs hre hs0 hr0 hreach
  have hfound : (findShortestPath gs startId r.id).found = true := hgood.found
  have hmemrooms : projInfo r ∈ getRoomsByTypeOnFloor gs roomType s.floor :=
    mem_getRoomsByTypeOnFloor hrmem hrt hrf
  obtain ⟨p, hp⟩ := bestOf_some_of_found ⟨projInfo r, hmemrooms, hfound⟩
  refine ⟨p, ?_, ?_⟩
  · unfold findNearestOfTypeSameFloor
    rw [hstart]
    show (match bestOf gs startId (getRoomsByTypeOnFloor gs roomType s.floor) with
      | some b => some b
      | none => findNearestOfType gs startId roomType) = some p
    rw [hp]
  · obtain ⟨hpf, room, hroommem, hpe⟩ := bestOf_mem hp
    obtain ⟨n, hnmem, hri, hnf⟩ := of_mem_getRoomsByTypeOnFloor hroommem
    have hroomid : room.id = n.id := by rw [hri]; rfl
    rw [hpe] at hpf ⊢
    obtain ⟨ne₁, hne₁, hlast⟩ := findShortestPath_found_last hpf
    have hres : resolveId gs room.id = some n.id := by
      rw [hroomid]
      exact resolveId_self hinj hnmem
    rw [hres] at hne₁
    have hne₂ : n.id = ne₁ := Option.some.inj hne₁
    have hhas := hN.2 n hnmem
    rw [jhas, Option.isSome_iff_exists] at hhas
    obtain ⟨nd, hnd⟩ := hhas
    obtain ⟨hndmem, hndid⟩ := hN.1 _ (jget_mem hnd)
    have hndn : nd = n := hinj nd hndmem n hnmem (by rw [hndid])
    refine ⟨ne₁, nd, hlast, ?_, ?_⟩
    · rw [← hne₂]
      exact hnd
    · rw [hndn, hnf]

theorem C2_witness :
    AdjOk wGS ∧ NodeMapOk wGS ∧ LcInj wGS ∧
      (jget wGS.nodeMap (jsUpper "0a010")).orElse (fun _ => jget wGS.nodeMap "0a010") =
        some { id := "0A010", name := "", roomType := "Office", area := none,
               floor := "0", floorLabel := "Ground Floor (EG)" } ∧
      ∃ p, findNearestOfTypeSameFloor wGS "0a010" "Stairwell" = some p ∧
        ∃ eid nd, p.path.getLast? = some eid ∧
          jget wGS.nodeMap eid = some nd ∧ nd.floor = "0" :=
  ⟨by decide, by decide, by decide, by decide,
    C2_nearest_same_floor wGS "0a010" "Stairwell"
      { id := "0A010", name := "", roomType := "Office", area := none,
        floor := "0", floorLabel := "Ground Floor (EG)" }
      (by decide) (by decide) (by decide) (by decide) (by decide)
      ⟨{ id := "0K041", name := "", roomType := "Stairwell", area := none,
         floor := "0", floorLabel := "Ground Floor (EG)" },
       by decide, by decide, rfl, by decide,
       ⟨["0A010", "0K041"], rfl, rfl, by decide⟩⟩⟩

/-! ## C9: distance symmetry -/

/-- Every stored adjacency entry `a → (b, w)` has its mirror `b → (a, w)`:
the decidable formulation of an all-bidirectional adjacency mapping. -/
def SymmAdj (gs : GraphState) : Prop :=
  ∀ p ∈ gs.adjacency, ∀ q ∈ p.2, jget2 gs.adjacency q.1 p.1 = some q.2

instance (gs : GraphState) : Decidable (SymmAdj gs) := by
  unfold SymmAdj
  exact inferInstance

theorem jget2_of_symm {gs : GraphState} (hsym : SymmAdj gs) {x y : String} {w : ℤ}
    (h : jget2 gs.adjacency x y = some w) : jget2 gs.adjacency y x = some w := by
  unfold jget2 at h
  cases hm : jget gs.adjacency x with
  | none =>
    rw [hm] at h
    simp at h
  | some m =>
    rw [hm] at h
    simp only [Option.some_bind] at h
    exact hsym (x, m) (jget_mem hm) (y, w) (jget_mem h)

theorem symmAdj_pointwise {gs : GraphState} (hsym : SymmAdj gs) (x y : String) :
    jget2 gs.adjacency x y = jget2 gs.adjacency y x := by
  cases h1 : jget2 gs.adjacency x y with
  | some w => rw [jget2_of_symm hsym h1]
  | none =>
    cases h2 : jget2 gs.adjacency y x with
    | some w =>
      rw [jget2_of_symm hsym h2] at h1
      cases h1
    | none => rfl

theorem walkCostD_reverse (adj : JMap String (JMap String ℤ))
    (hsym : ∀ x y, jget2 adj x y = jget2 adj y x) :
    ∀ l : List String, walkCostD adj l.reverse = walkCostD adj l := by
  intro l
  induction l with
  | nil => rfl
  | cons a rest ih =>
    cases rest with
    | nil => rfl
    | cons b rest' =>
      have hlast : ((b :: rest').reverse).getLast? = some b := by
        rw [List.getLast?_reverse]
        rfl
      have hstep : stepD adj b a = stepD adj a b := by
        unfold stepD
        rw [hsym]
      rw [List.reverse_cons, walkCostD_concat adj a hlast, ih, hstep]
      show walkCostD adj (b :: rest') + stepD adj a b =
        stepD adj a b + walkCostD adj (b :: rest')
      rw [add_comm]

/-- The C9 counterexample graph: a bidirectional edge `0A – 0B` of weight 5 and
a strictly one-way two-hop shortcut `0B → 0C → 0A` of total weight 2. -/
def cexFD9 : FloorData :=
  ⟨[{ id := "0A" }, { id := "0B" }, { id := "0C" }],
   [{ source := "0A", target := "0B", distance_m := some 5 },
    { source := "0B", target := "0C", bidirectional := some false,
      distance_m := some 1 },
    { source := "0C", target := "0A", bidirectional := some false,
      distance_m := some 1 }]⟩

def cexGS9 : GraphState :=
  initializeGraph (mkFloors cexFD9 emptyFD emptyFD emptyFD emptyFD emptyFD)

/-- C9 counterexample: in `cexGS9` the identifiers `0A` and `0B` resolve, each
is reachable from the other, and the unique optimal path from `0A` to `0B` —
the single edge `0A → 0B` — consists only of edges that are bidirectional in
the assembled adjacency (the mirror entry carries the same weight).  Yet
`findShortestPath("0A","0B").totalDistance = 5` while the opposite direction
uses the one-way shortcut `0B → 0C → 0A` and returns 2. -/
theorem C9_counterexample :
    resolveId cexGS9 "0A" = some "0A" ∧ resolveId cexGS9 "0B" = some "0B" ∧
      ReachableIn cexGS9.adjacency "0A" "0B" ∧
      ReachableIn cexGS9.adjacency "0B" "0A" ∧
      (∃ l : List String, l.head? = some "0A" ∧ l.getLast? = some "0B" ∧
        walkCostD cexGS9.adjacency l =
          (findShortestPath cexGS9 "0A" "0B").totalDistance ∧
        List.Chain' (fun x y =>
          jget2 cexGS9.adjacency x y = jget2 cexGS9.adjacency y x) l) ∧
      (findShortestPath cexGS9 "0A" "0B").totalDistance ≠
        (findShortestPath cexGS9 "0B" "0A").totalDistance :=
  ⟨by decide, by decide,
    ⟨["0A", "0B"], rfl, rfl, by decide⟩,
    ⟨["0B", "0C", "0A"], rfl, rfl, by decide⟩,
    ⟨["0A", "0B"], rfl, rfl, by decide, List.chain'_pair.mpr (by decide)⟩,
    by decide⟩

/-- C9 (amended): for identifiers that resolve to nonempty ids with the end
reachable from the start, if EVERY stored adjacency entry has a mirror entry of
equal weight (an all-bidirectional graph, `SymmAdj`), then
`findShortestPath(a,b).totalDistance = findShortestPath(b,a).totalDistance`.
Bidirectionality of one optimal path alone is not sufficient (see the
counterexample); symmetry of the whole adjacency is. -/
theorem C9_amended_symmetric_distance (gs : GraphState) (a b na nb : String)
    (hA : AdjOk gs) (hsym : SymmAdj gs)
    (hra : resolveId gs a = some na) (hrb : resolveId gs b = some nb)
    (ha0 : na ≠ "") (hb0 : nb ≠ "")
    (hreach : ReachableIn gs.adjacency na nb) :
    (findShortestPath gs a b).totalDistance =
      (findShortestPath gs b a).totalDistance := by
  have hpt := symmAdj_pointwise hsym
  have hrev := walkCostD_reverse gs.adjacency hpt
  have hreach' : ReachableIn gs.adjacency nb na := by
    obtain ⟨l, hh, hl, hc⟩ := hreach
    refine ⟨l.reverse, ?_, ?_, ?_⟩
    · rw [List.head?_reverse]
      exact hl
    · rw [List.getLast?_reverse]
      exact hh
    · rw [hrev l]
      exact hc
  have h1 := findShortestPath_spec gs hA hra hrb ha0 hb0 hreach
  have h2 := findShortestPath_spec gs hA hrb hra hb0 ha0 hreach'
  apply le_antisymm
  · have hle := h1.minimal (findShortestPath gs b a).path.reverse
      (by rw [List.head?_reverse]; exact h2.last)
      (by rw [List.getLast?_reverse]; exact h2.head)
    rw [hrev, h2.cost] at hle
    exact hle
  · have hle := h2.minimal (findShortestPath gs a b).path.reverse
      (by rw [List.head?_reverse]; exact h1.last)
      (by rw [List.getLast?_reverse]; exact h1.head)
    rw [hrev, h1.cost] at hle
    exact hle

theorem C9_witness :
    AdjOk wGS ∧ SymmAdj wGS ∧
      (findShortestPath wGS "0a010" "1a020").totalDistance =
        (findShortestPath wGS "1a020" "0a010").totalDistance :=
  ⟨by decide, by decide,
    C9_amended_symmetric_distance wGS "0a010" "1a020" "0A010" "1A020"
      (by decide) (by decide) (by decide) (by decide) (by decide) (by decide)
      ⟨["0A010", "0K041", "1K041", "1A020"], rfl, rfl, by decide⟩⟩

/-! ## Graph-assembly lemmas (C6 / C7) -/

theorem jhas_jset {α β : Type} [DecidableEq α] (m : JMap α β) (k x : α) (v : β) :
    jhas (jset m k v) x = if k = x then true else jhas m x := by
  unfold jhas
  rw [jget_jset]
  by_cases h : k = x
  · rw [if_pos h, if_pos h]
    rfl
  · rw [if_neg h, if_neg h]

theorem mem_jset {α β : Type} [DecidableEq α] {m : JMap α β} {k : α} {v : β}
    {p : α × β} (h : p ∈ jset m k v) : p ∈ m ∨ p = (k, v) := by
  induction m with
  | nil =>
    unfold jset at h
    simp at h
    exact Or.inr h
  | cons q rest ih =>
    obtain ⟨k₀, v₀⟩ := q
    unfold jset at h
    by_cases hk : k₀ = k
    · rw [if_pos hk] at h
      rcases List.mem_cons.mp h with h1 | h1
      · exact Or.inr h1
      · exact Or.inl (List.mem_cons_of_mem _ h1)
    · rw [if_neg hk] at h
      rcases List.mem_cons.mp h with h1 | h1
      · exact Or.inl (h1 ▸ List.mem_cons_self _ _)
      · rcases ih h1 with h2 | h2
        · exact Or.inl (List.mem_cons_of_mem _ h2)
        · exact Or.inr h2

theorem jget2_insertAdj (adj : JMap String (JMap String ℤ)) (x y : String) (d : ℤ)
    (a b : String) :
    jget2 (insertAdj adj x y d) a b =
      if x = a ∧ y = b ∧ jhas adj x = true then some d else jget2 adj a b := by
  unfold insertAdj
  cases hm : jget adj x with
  | none =>
    rw [if_neg]
    intro ⟨_, _, hh⟩
    rw [jhas, hm] at hh
    cases hh
  | some m =>
    have hhas : jhas adj x = true := by rw [jhas, hm]; rfl
    unfold jget2
    rw [jget_jset]
    by_cases hxa : x = a
    · rw [if_pos hxa]
      show (some (jset m y d)).bind (fun mm => jget mm b) = _
      rw [Option.some_bind, jget_jset]
      by_cases hyb : y = b
      · rw [if_pos hyb, if_pos ⟨hxa, hyb, hhas⟩]
      · rw [if_neg hyb, if_neg (fun hc => hyb hc.2.1)]
        rw [← hxa, hm]
        rfl
    · rw [if_neg hxa, if_neg (fun hc => hxa hc.1)]

theorem jhas_insertAdj (adj : JMap String (JMap String ℤ)) (x y : String) (d : ℤ)
    (z : String) : jhas (insertAdj adj x y d) z = jhas adj z := by
  unfold insertAdj
  cases hm : jget adj x with
  | none => rfl
  | some m =>
    rw [jhas_jset]
    by_cases hxz : x = z
    · rw [if_pos hxz, ← hxz, jhas, hm]
      rfl
    · rw [if_neg hxz]

theorem jhas_applyEdgeUnchecked (adj : JMap String (JMap String ℤ))
    (e : NormalizedEdge) (z : String) :
    jhas (applyEdgeUnchecked adj e) z = jhas adj z := by
  unfold applyEdgeUnchecked
  by_cases hb : e.bidirectional
  · rw [if_pos hb, jhas_insertAdj, jhas_insertAdj]
  · rw [if_neg hb, jhas_insertAdj]

theorem jhas_applyEdgeChecked (adj : JMap String (JMap String ℤ))
    (e : NormalizedEdge) (z : String) :
    jhas (applyEdgeChecked adj e) z = jhas adj z := by
  unfold applyEdgeChecked
  by_cases hc : jhas adj e.source = true ∧ jhas adj e.target = true
  · rw [if_pos hc, jhas_applyEdgeUnchecked]
  · rw [if_neg hc]

theorem jhas_foldl_checked (l : List NormalizedEdge) :
    ∀ (adj : JMap String (JMap String ℤ)) (z : String),
      jhas (l.foldl applyEdgeChecked adj) z = jhas adj z := by
  induction l with
  | nil => intro adj z; rfl
  | cons e rest ih =>
    intro adj z
    show jhas (rest.foldl applyEdgeChecked (applyEdgeChecked adj e)) z = _
    rw [ih, jhas_applyEdgeChecked]

theorem jhas_foldl_unchecked (l : List NormalizedEdge) :
    ∀ (adj : JMap String (JMap String ℤ)) (z : String),
      jhas (l.foldl applyEdgeUnchecked adj) z = jhas adj z := by
  induction l with
  | nil => intro adj z; rfl
  | cons e rest ih =>
    intro adj z
    show jhas (rest.foldl applyEdgeUnchecked (applyEdgeUnchecked adj e)) z = _
    rw [ih, jhas_applyEdgeUnchecked]

/-- An edge write lands on the ordered pair `(a, b)`: either it is the
forward entry, or the edge is bidirectional and it is the mirror entry. -/
def Touches (e : NormalizedEdge) (a b : String) : Prop :=
  (e.source = a ∧ e.target = b) ∨
    (e.bidirectional = true ∧ e.target = a ∧ e.source = b)

theorem jget2_applyEdgeUnchecked_untouched {e : NormalizedEdge} {a b : String}
    (adj : JMap String (JMap String ℤ)) (h : ¬ Touches e a b) :
    jget2 (applyEdgeUnchecked adj e) a b = jget2 adj a b := by
  unfold applyEdgeUnchecked
  have h1 : ¬(e.source = a ∧ e.target = b) := fun hc => h (Or.inl hc)
  by_cases hb : e.bidirectional
  · rw [if_pos hb, jget2_insertAdj, jget2_insertAdj,
      if_neg (fun hc => h (Or.inr ⟨hb, hc.1, hc.2.1⟩)),
      if_neg (fun hc => h1 ⟨hc.1, hc.2.1⟩)]
  · rw [if_neg hb, jget2_insertAdj, if_neg (fun hc => h1 ⟨hc.1, hc.2.1⟩)]

theorem jget2_applyEdgeUnchecked_touched {e : NormalizedEdge} {a b : String}
    (adj : JMap String (JMap String ℤ)) (h : Touches e a b)
    (hk : jhas adj a = true) :
    jget2 (applyEdgeUnchecked adj e) a b = some e.distance := by
  unfold applyEdgeUnchecked
  rcases h with ⟨hs, ht⟩ | ⟨hb, ht, hs⟩
  · by_cases hb : e.bidirectional
    · rw [if_pos hb, jget2_insertAdj]
      by_cases hc : e.target = a ∧ e.source = b ∧
          jhas (insertAdj adj e.source e.target e.distance) e.target = true
      · rw [if_pos hc]
      · rw [if_neg hc, jget2_insertAdj, if_pos ⟨hs, ht, by rw [hs]; exact hk⟩]
    · rw [if_neg hb, jget2_insertAdj, if_pos ⟨hs, ht, by rw [hs]; exact hk⟩]
  · rw [if_pos hb, jget2_insertAdj,
      if_pos ⟨ht, hs, by rw [jhas_insertAdj, ht]; exact hk⟩]

theorem jget2_foldl_unchecked_preserve {a b : String} {d : ℤ}
    (l : List NormalizedEdge)
    (hall : ∀ e ∈ l, Touches e a b → e.distance = d) :
    ∀ (adj : JMap String (JMap String ℤ)), jget2 adj a b = some d →
      jget2 (l.foldl applyEdgeUnchecked adj) a b = some d := by
  induction l with
  | nil => intro adj h; exact h
  | cons e rest ih =>
    intro adj h
    show jget2 (rest.foldl applyEdgeUnchecked (applyEdgeUnchecked adj e)) a b = some d
    have hrest : ∀ e' ∈ rest, Touches e' a b → e'.distance = d :=
      fun e' he' => hall e' (List.mem_cons_of_mem _ he')
    by_cases ht : Touches e a b
    · have hk : jhas adj a = true := by
        unfold jget2 at h
        cases hm : jget adj a with
        | none => rw [hm] at h; cases h
        | some m => rw [jhas, hm]; rfl
      refine ih hrest _ ?_
      rw [jget2_applyEdgeUnchecked_touched adj ht hk, hall e (List.mem_cons_self _ _) ht]
    · refine ih hrest _ ?_
      rw [jget2_applyEdgeUnchecked_untouched adj ht]
      exact h

theorem jget2_foldl_unchecked_write {a b : String} {d : ℤ}
    (l : List NormalizedEdge) {e : NormalizedEdge} (he : e ∈ l)
    (ht : Touches e a b) (hed : e.distance = d)
    (hall : ∀ e' ∈ l, Touches e' a b → e'.distance = d) :
    ∀ (adj : JMap String (JMap String ℤ)), jhas adj a = true →
      jget2 (l.foldl applyEdgeUnchecked adj) a b = some d := by
  induction l with
  | nil => cases he
  | cons e₀ rest ih =>
    intro adj hk
    show jget2 (rest.foldl applyEdgeUnchecked (applyEdgeUnchecked adj e₀)) a b = some d
    have hrest : ∀ e' ∈ rest, Touches e' a b → e'.distance = d :=
      fun e' he' => hall e' (List.mem_cons_of_mem _ he')
    by_cases ht₀ : Touches e₀ a b
    · refine jget2_foldl_unchecked_preserve rest hrest _ ?_
      rw [jget2_applyEdgeUnchecked_touched adj ht₀ hk,
        hall e₀ (List.mem_cons_self _ _) ht₀]
    · rcases List.mem_cons.mp he with rfl | he'
      · exact absurd ht ht₀
      · refine ih he' hrest _ ?_
        rw [jhas_applyEdgeUnchecked]
        exact hk

theorem mem_interEdgesFor {nm : JMap String NormalizedNode} {lo up : String}
    {sfxs : List String} {d : ℤ} {e : NormalizedEdge} :
    e ∈ interEdgesFor nm lo up sfxs d ↔
      ∃ s ∈ sfxs, jhas nm (lo ++ s) = true ∧ jhas nm (up ++ s) = true ∧
        e = ⟨lo ++ s, up ++ s, true, d⟩ := by
  unfold interEdgesFor
  rw [List.mem_filterMap]
  constructor
  · rintro ⟨s, hs, hf⟩
    by_cases hc : jhas nm (lo ++ s) = true ∧ jhas nm (up ++ s) = true
    · rw [if_pos hc] at hf
      exact ⟨s, hs, hc.1, hc.2, (Option.some.inj hf).symm⟩
    · rw [if_neg hc] at hf
      cases hf
  · rintro ⟨s, hs, h1, h2, rfl⟩
    exact ⟨s, hs, by rw [if_pos ⟨h1, h2⟩]⟩

theorem mem_buildInterFloorEdges {floors : List FloorInfo}
    {nm : JMap String NormalizedNode} {e : NormalizedEdge} :
    e ∈ buildInterFloorEdges floors nm ↔
      ∃ pr ∈ adjacentPairs (sortStr (floors.map (·.pfx))),
        e ∈ interEdgesFor nm pr.1 pr.2 STAIRWELL_SUFFIXES
              STAIR_FLOOR_CHANGE_DISTANCE ∨
        e ∈ interEdgesFor nm pr.1 pr.2 LIFT_VESTIBULE_SUFFIXES
              LIFT_FLOOR_CHANGE_DISTANCE := by
  unfold buildInterFloorEdges
  rw [List.mem_bind]
  constructor
  · rintro ⟨pr, hpr, hm⟩
    exact ⟨pr, hpr, List.mem_append.mp hm⟩
  · rintro ⟨pr, hpr, hm⟩
    exact ⟨pr, hpr, List.mem_append.mpr hm⟩

theorem string_append_inj {p₁ p₂ s₁ s₂ : String} (hlen : p₁.length = p₂.length)
    (h : p₁ ++ s₁ = p₂ ++ s₂) : p₁ = p₂ ∧ s₁ = s₂ := by
  cases p₁ with
  | mk a =>
    cases p₂ with
    | mk c =>
      cases s₁ with
      | mk b =>
        cases s₂ with
        | mk e =>
          have h' : String.mk (a ++ b) = String.mk (c ++ e) := h
          have hlen' : a.length = c.length := hlen
          injection h' with h''
          obtain ⟨h1, h2⟩ := List.append_inj h'' hlen'
          exact ⟨congrArg String.mk h1, congrArg String.mk h2⟩

/-- Phase 1 of `initializeGraph` in isolation: node registration. -/
def phase1 (floors : List FloorInfo) : GraphState :=
  floors.foldl (fun gs fi => (normalizeNodes fi).foldl registerNode gs) ⟨[], [], []⟩

/-- Phase 2 of `initializeGraph` in isolation: intra-floor edges. -/
def phase2 (floors : List FloorInfo) (adj : JMap String (JMap String ℤ)) :
    JMap String (JMap String ℤ) :=
  floors.foldl (fun a fi => (normalizeEdges fi).foldl applyEdgeChecked a) adj

theorem initializeGraph_eq (floors : List FloorInfo) :
    initializeGraph floors =
      ⟨(phase1 floors).allNodes, (phase1 floors).nodeMap,
       (buildInterFloorEdges floors (phase1 floors).nodeMap).foldl
         applyEdgeUnchecked (phase2 floors (phase1 floors).adjacency)⟩ := rfl

/-- The phase-1 node/adjacency bookkeeping invariant: the adjacency key set
tracks the node table, and every adjacency bucket is still empty. -/
def Phase1Inv (gs : GraphState) : Prop :=
  (∀ x, jhas gs.adjacency x = jhas gs.nodeMap x) ∧
    ∀ p ∈ gs.adjacency, p.2 = ([] : JMap String ℤ)

theorem registerNode_inv {gs : GraphState} (h : Phase1Inv gs)
    (n : NormalizedNode) : Phase1Inv (registerNode gs n) := by
  constructor
  · intro x
    show jhas (jset gs.adjacency n.id []) x = jhas (jset gs.nodeMap n.id n) x
    rw [jhas_jset, jhas_jset]
    by_cases hx : n.id = x
    · rw [if_pos hx, if_pos hx]
    · rw [if_neg hx, if_neg hx]
      exact h.1 x
  · intro p hp
    rcases mem_jset hp with h1 | h1
    · exact h.2 p h1
    · rw [h1]

theorem foldl_registerNode_inv (nodes : List NormalizedNode) :
    ∀ gs : GraphState, Phase1Inv gs → Phase1Inv (nodes.foldl registerNode gs) := by
  induction nodes with
  | nil => intro gs h; exact h
  | cons n rest ih =>
    intro gs h
    exact ih _ (registerNode_inv h n)

theorem phase1_inv (floors : List FloorInfo) : Phase1Inv (phase1 floors) := by
  unfold phase1
  generalize hgs : (⟨[], [], []⟩ : GraphState) = gs0
  have h0 : Phase1Inv gs0 := by
    rw [← hgs]
    exact ⟨fun x => rfl, by intro p hp; cases hp⟩
  clear hgs
  induction floors generalizing gs0 with
  | nil => exact h0
  | cons fi rest ih =>
    exact ih _ (foldl_registerNode_inv _ _ h0)

theorem phase1_jget2 (floors : List FloorInfo) (a b : String) :
    jget2 (phase1 floors).adjacency a b = none := by
  unfold jget2
  cases hm : jget (phase1 floors).adjacency a with
  | none => rfl
  | some m =>
    have hemp : m = [] := (phase1_inv floors).2 (a, m) (jget_mem hm)
    rw [Option.some_bind, hemp]
    rfl

/-- Every finite adjacency entry has both endpoints registered in the node
table. -/
def EndpointsReg (adj : JMap String (JMap String ℤ))
    (nm : JMap String NormalizedNode) : Prop :=
  ∀ a b w, jget2 adj a b = some w → jhas nm a = true ∧ jhas nm b = true

theorem insertAdj_reg {adj : JMap String (JMap String ℤ)}
    {nm : JMap String NormalizedNode} (hreg : EndpointsReg adj nm)
    {x y : String} {d : ℤ} (hx : jhas nm x = true) (hy : jhas nm y = true) :
    EndpointsReg (insertAdj adj x y d) nm := by
  intro a b w h
  rw [jget2_insertAdj] at h
  by_cases hc : x = a ∧ y = b ∧ jhas adj x = true
  · rw [if_pos hc] at h
    exact ⟨hc.1 ▸ hx, hc.2.1 ▸ hy⟩
  · rw [if_neg hc] at h
    exact hreg a b w h

theorem applyEdgeUnchecked_reg {adj : JMap String (JMap String ℤ)}
    {nm : JMap String NormalizedNode} {e : NormalizedEdge}
    (hreg : EndpointsReg adj nm) (hs : jhas nm e.source = true)
    (ht : jhas nm e.target = true) :
    EndpointsReg (applyEdgeUnchecked adj e) nm := by
  unfold applyEdgeUnchecked
  by_cases hb : e.bidirectional
  · rw [if_pos hb]
    exact insertAdj_reg (insertAdj_reg hreg hs ht) ht hs
  · rw [if_neg hb]
    exact insertAdj_reg hreg hs ht

theorem applyEdgeChecked_reg {adj : JMap String (JMap String ℤ)}
    {nm : JMap String NormalizedNode} {e : NormalizedEdge}
    (hreg : EndpointsReg adj nm) (hkeys : ∀ x, jhas adj x = jhas nm x) :
    EndpointsReg (applyEdgeChecked adj e) nm := by
  unfold applyEdgeChecked
  by_cases hc : jhas adj e.source = true ∧ jhas adj e.target = true
  · rw [if_pos hc]
    exact applyEdgeUnchecked_reg hreg (by rw [← hkeys]; exact hc.1)
      (by rw [← hkeys]; exact hc.2)
  · rw [if_neg hc]
    exact hreg

theorem foldl_checked_reg {nm : JMap String NormalizedNode}
    (l : List NormalizedEdge) :
    ∀ adj, EndpointsReg adj nm → (∀ x, jhas adj x = jhas nm x) →
      EndpointsReg (l.foldl applyEdgeChecked adj) nm := by
  induction l with
  | nil => intro adj hreg _; exact hreg
  | cons e rest ih =>
    intro adj hreg hkeys
    exact ih _ (applyEdgeChecked_reg hreg hkeys)
      (fun x => by rw [jhas_applyEdgeChecked]; exact hkeys x)

theorem phase2_reg {nm : JMap String NormalizedNode} (floors : List FloorInfo) :
    ∀ adj, EndpointsReg adj nm → (∀ x, jhas adj x = jhas nm x) →
      EndpointsReg (phase2 floors adj) nm := by
  unfold phase2
  induction floors with
  | nil => intro adj hreg _; exact hreg
  | cons fi rest ih =>
    intro adj hreg hkeys
    exact ih _ (foldl_checked_reg _ _ hreg hkeys)
      (fun x => by rw [jhas_foldl_checked]; exact hkeys x)

theorem foldl_unchecked_reg {nm : JMap String NormalizedNode}
    (l : List NormalizedEdge)
    (hends : ∀ e ∈ l, jhas nm e.source = true ∧ jhas nm e.target = true) :
    ∀ adj, EndpointsReg adj nm → EndpointsReg (l.foldl applyEdgeUnchecked adj) nm := by
  induction l with
  | nil => intro adj hreg; exact hreg
  | cons e rest ih =>
    intro adj hreg
    have h := hends e (List.mem_cons_self _ _)
    exact ih (fun e' he' => hends e' (List.mem_cons_of_mem _ he')) _
      (applyEdgeUnchecked_reg hreg h.1 h.2)

theorem buildInterFloorEdges_ends {floors : List FloorInfo}
    {nm : JMap String NormalizedNode} {e : NormalizedEdge}
    (h : e ∈ buildInterFloorEdges floors nm) :
    jhas nm e.source = true ∧ jhas nm e.target = true := by
  obtain ⟨pr, _, hm⟩ := mem_buildInterFloorEdges.mp h
  rcases hm with hm | hm <;>
    · obtain ⟨s, _, h1, h2, rfl⟩ := mem_interEdgesFor.mp hm
      exact ⟨h1, h2⟩

theorem initializeGraph_reg (floors : List FloorInfo) :
    EndpointsReg (initializeGraph floors).adjacency
      (initializeGraph floors).nodeMap := by
  rw [initializeGraph_eq]
  refine foldl_unchecked_reg _
    (fun e he => buildInterFloorEdges_ends he) _ (phase2_reg floors _ ?_ ?_)
  · intro a b w h
    rw [phase1_jget2] at h
    cases h
  · exact (phase1_inv floors).1

/-- The concrete floor ordering of the `FLOORS` table: prefixes sorted and
paired. -/
theorem adjacentPairs_floors (d0 d1 d2 d3 d4 d5 : FloorData) :
    adjacentPairs (sortStr ((mkFloors d0 d1 d2 d3 d4 d5).map (·.pfx))) =
      [("0", "1"), ("1", "2"), ("2", "3"), ("3", "4"), ("4", "5")] := rfl

theorem jhas_phase2 (floors : List FloorInfo) :
    ∀ (adj : JMap String (JMap String ℤ)) (x : String),
      jhas (phase2 floors adj) x = jhas adj x := by
  unfold phase2
  induction floors with
  | nil => intro adj x; rfl
  | cons fi rest ih =>
    intro adj x
    show jhas (rest.foldl _ ((normalizeEdges fi).foldl applyEdgeChecked adj)) x = _
    rw [ih, jhas_foldl_checked]

/-- The inter-floor synthesis in full: with both suffixed nodes registered,
the final adjacency carries the synthetic edge in both directions with the
family's fixed distance. -/
theorem interFloor_adjacency (d0 d1 d2 d3 d4 d5 : FloorData)
    (lower upper sfx : String) (d : ℤ)
    (hpair : (lower, upper) ∈
      adjacentPairs (sortStr ((mkFloors d0 d1 d2 d3 d4 d5).map (·.pfx))))
    (hsfx : sfx ∈ STAIRWELL_SUFFIXES ∧ d = STAIR_FLOOR_CHANGE_DISTANCE ∨
            sfx ∈ LIFT_VESTIBULE_SUFFIXES ∧ d = LIFT_FLOOR_CHANGE_DISTANCE)
    (h1 : jhas (initializeGraph (mkFloors d0 d1 d2 d3 d4 d5)).nodeMap
      (lower ++ sfx) = true)
    (h2 : jhas (initializeGraph (mkFloors d0 d1 d2 d3 d4 d5)).nodeMap
      (upper ++ sfx) = true) :
    jget2 (initializeGraph (mkFloors d0 d1 d2 d3 d4 d5)).adjacency
        (lower ++ sfx) (upper ++ sfx) = some d ∧
      jget2 (initializeGraph (mkFloors d0 d1 d2 d3 d4 d5)).adjacency
        (upper ++ sfx) (lower ++ sfx) = some d := by
  have hpair' : (lower, upper) ∈
      [(("0" : String), ("1" : String)), ("1", "2"), ("2", "3"),
        ("3", "4"), ("4", "5")] := hpair
  have hplen : ∀ pr ∈ [(("0" : String), ("1" : String)), ("1", "2"), ("2", "3"),
      ("3", "4"), ("4", "5")], (pr.1.length = 1 ∧ pr.2.length = 1) := by decide
  have hnorev : ∀ pr ∈ [(("0" : String), ("1" : String)), ("1", "2"), ("2", "3"),
      ("3", "4"), ("4", "5")],
      ((pr.2, pr.1) ∉ [(("0" : String), ("1" : String)), ("1", "2"), ("2", "3"),
        ("3", "4"), ("4", "5")]) := by decide
  have hdisj : ∀ s ∈ STAIRWELL_SUFFIXES, s ∉ LIFT_VESTIBULE_SUFFIXES := by decide
  have hdec : ∀ (p q s t : String), p.length = 1 → q.length = 1 →
      p ++ s = q ++ t → p = q ∧ s = t := by
    intro p q s t hp hq h
    exact string_append_inj (by rw [hp, hq]) h
  obtain ⟨hlow, hup⟩ := hplen _ hpair'
  have h1' : jhas (phase1 (mkFloors d0 d1 d2 d3 d4 d5)).nodeMap
      (lower ++ sfx) = true := h1
  have h2' : jhas (phase1 (mkFloors d0 d1 d2 d3 d4 d5)).nodeMap
      (upper ++ sfx) = true := h2
  -- our synthetic edge is on the phase-3 list
  have he : (⟨lower ++ sfx, upper ++ sfx, true, d⟩ : NormalizedEdge) ∈
      buildInterFloorEdges (mkFloors d0 d1 d2 d3 d4 d5)
        (phase1 (mkFloors d0 d1 d2 d3 d4 d5)).nodeMap := by
    refine mem_buildInterFloorEdges.mpr ⟨(lower, upper), hpair, ?_⟩
    rcases hsfx with ⟨hs, rfl⟩ | ⟨hs, rfl⟩
    · exact Or.inl (mem_interEdgesFor.mpr ⟨sfx, hs, h1', h2', rfl⟩)
    · exact Or.inr (mem_interEdgesFor.mpr ⟨sfx, hs, h1', h2', rfl⟩)
  -- every phase-3 write landing on either ordered pair writes d
  have hall : ∀ e' ∈ buildInterFloorEdges (mkFloors d0 d1 d2 d3 d4 d5)
      (phase1 (mkFloors d0 d1 d2 d3 d4 d5)).nodeMap,
      (Touches e' (lower ++ sfx) (upper ++ sfx) → e'.distance = d) ∧
      (Touches e' (upper ++ sfx) (lower ++ sfx) → e'.distance = d) := by
    intro e' he'
    obtain ⟨pr, hpr, hm⟩ := mem_buildInterFloorEdges.mp he'
    obtain ⟨p₁, p₂⟩ := pr
    have hpr' : (p₁, p₂) ∈ [(("0" : String), ("1" : String)), ("1", "2"),
        ("2", "3"), ("3", "4"), ("4", "5")] := hpr
    obtain ⟨hp₁, hp₂⟩ := hplen _ hpr'
    rcases hm with hm | hm <;> obtain ⟨s, hsmem, _, _, rfl⟩ := mem_interEdgesFor.mp hm
    · constructor
      · rintro (⟨hsrc, htgt⟩ | ⟨_, htgt, hsrc⟩)
        · obtain ⟨hq, hst⟩ := hdec p₁ lower s sfx hp₁ hlow hsrc
          rcases hsfx with ⟨hs2, rfl⟩ | ⟨hs2, rfl⟩
          · rfl
          · exact absurd hs2 (hdisj sfx (hst ▸ hsmem))
        · obtain ⟨hq, hst⟩ := hdec p₂ lower s sfx hp₂ hlow htgt
          obtain ⟨hq2, _⟩ := hdec p₁ upper s sfx hp₁ hup hsrc
          rw [hq, hq2] at hpr'
          exact absurd hpr' (hnorev _ hpair')
      · rintro (⟨hsrc, htgt⟩ | ⟨_, htgt, hsrc⟩)
        · obtain ⟨hq, hst⟩ := hdec p₁ upper s sfx hp₁ hup hsrc
          obtain ⟨hq2, _⟩ := hdec p₂ lower s sfx hp₂ hlow htgt
          rw [hq, hq2] at hpr'
          exact absurd hpair' (hnorev _ hpr')
        · obtain ⟨hq, hst⟩ := hdec p₂ upper s sfx hp₂ hup htgt
          rcases hsfx with ⟨hs2, rfl⟩ | ⟨hs2, rfl⟩
          · rfl
          · exact absurd hs2 (hdisj sfx (hst ▸ hsmem))
    · constructor
      · rintro (⟨hsrc, htgt⟩ | ⟨_, htgt, hsrc⟩)
        · obtain ⟨hq, hst⟩ := hdec p₁ lower s sfx hp₁ hlow hsrc
          rcases hsfx with ⟨hs2, rfl⟩ | ⟨hs2, rfl⟩
          · exact absurd (hst ▸ hsmem) (hdisj sfx hs2)
          · rfl
        · obtain ⟨hq, hst⟩ := hdec p₂ lower s sfx hp₂ hlow htgt
          obtain ⟨hq2, _⟩ := hdec p₁ upper s sfx hp₁ hup hsrc
          rw [hq, hq2] at hpr'
          exact absurd hpr' (hnorev _ hpair')
      · rintro (⟨hsrc, htgt⟩ | ⟨_, htgt, hsrc⟩)
        · obtain ⟨hq, hst⟩ := hdec p₁ upper s sfx hp₁ hup hsrc
          obtain ⟨hq2, _⟩ := hdec p₂ lower s sfx hp₂ hlow htgt
          rw [hq, hq2] at hpr'
          exact absurd hpair' (hnorev _ hpr')
        · obtain ⟨hq, hst⟩ := hdec p₂ upper s sfx hp₂ hup htgt
          rcases hsfx with ⟨hs2, rfl⟩ | ⟨hs2, rfl⟩
          · exact absurd (hst ▸ hsmem) (hdisj sfx hs2)
          · rfl
  have hka : jhas (phase2 (mkFloors d0 d1 d2 d3 d4 d5)
      (phase1 (mkFloors d0 d1 d2 d3 d4 d5)).adjacency) (lower ++ sfx) = true := by
    rw [jhas_phase2, (phase1_inv _).1]
    exact h1'
  have hkb : jhas (phase2 (mkFloors d0 d1 d2 d3 d4 d5)
      (phase1 (mkFloors d0 d1 d2 d3 d4 d5)).adjacency) (upper ++ sfx) = true := by
    rw [jhas_phase2, (phase1_inv _).1]
    exact h2'
  constructor
  · show jget2 ((buildInterFloorEdges (mkFloors d0 d1 d2 d3 d4 d5)
        (phase1 (mkFloors d0 d1 d2 d3 d4 d5)).nodeMap).foldl applyEdgeUnchecked
        (phase2 (mkFloors d0 d1 d2 d3 d4 d5)
          (phase1 (mkFloors d0 d1 d2 d3 d4 d5)).adjacency))
      (lower ++ sfx) (upper ++ sfx) = some d
    exact jget2_foldl_unchecked_write _ he (Or.inl ⟨rfl, rfl⟩) rfl
      (fun e' he' ht => (hall e' he').1 ht) _ hka
  · show jget2 ((buildInterFloorEdges (mkFloors d0 d1 d2 d3 d4 d5)
        (phase1 (mkFloors d0 d1 d2 d3 d4 d5)).nodeMap).foldl applyEdgeUnchecked
        (phase2 (mkFloors d0 d1 d2 d3 d4 d5)
          (phase1 (mkFloors d0 d1 d2 d3 d4 d5)).adjacency))
      (upper ++ sfx) (lower ++ sfx) = some d
    exact jget2_foldl_unchecked_write _ he (Or.inr ⟨rfl, rfl, rfl⟩) rfl
      (fun e' he' ht => (hall e' he').2 ht) _ hkb

/-- C6: for every pair of floor prefixes adjacent in the sorted floor
ordering and every vertical-circulation suffix (with its family's fixed
distance: 15 for stairwells, 10 for lift vestibules), graph assembly adds the
bidirectional inter-floor edge between the lower- and upper-prefixed nodes if
both exist — it then appears in the final adjacency in both directions with
that distance — and synthesizes no edge for that position when either node is
missing. -/
theorem C6_inter_floor_edge_synthesis (d0 d1 d2 d3 d4 d5 : FloorData)
    (lower upper sfx : String) (d : ℤ)
    (hpair : (lower, upper) ∈
      adjacentPairs (sortStr ((mkFloors d0 d1 d2 d3 d4 d5).map (·.pfx))))
    (hsfx : sfx ∈ STAIRWELL_SUFFIXES ∧ d = STAIR_FLOOR_CHANGE_DISTANCE ∨
            sfx ∈ LIFT_VESTIBULE_SUFFIXES ∧ d = LIFT_FLOOR_CHANGE_DISTANCE) :
    (jhas (initializeGraph (mkFloors d0 d1 d2 d3 d4 d5)).nodeMap
        (lower ++ sfx) = true ∧
     jhas (initializeGraph (mkFloors d0 d1 d2 d3 d4 d5)).nodeMap
        (upper ++ sfx) = true →
      jget2 (initializeGraph (mkFloors d0 d1 d2 d3 d4 d5)).adjacency
          (lower ++ sfx) (upper ++ sfx) = some d ∧
        jget2 (initializeGraph (mkFloors d0 d1 d2 d3 d4 d5)).adjacency
          (upper ++ sfx) (lower ++ sfx) = some d) ∧
    (¬(jhas (initializeGraph (mkFloors d0 d1 d2 d3 d4 d5)).nodeMap
        (lower ++ sfx) = true ∧
       jhas (initializeGraph (mkFloors d0 d1 d2 d3 d4 d5)).nodeMap
        (upper ++ sfx) = true) →
      (⟨lower ++ sfx, upper ++ sfx, true, d⟩ : NormalizedEdge) ∉
        buildInterFloorEdges (mkFloors d0 d1 d2 d3 d4 d5)
          (initializeGraph (mkFloors d0 d1 d2 d3 d4 d5)).nodeMap) := by
  have hpair' : (lower, upper) ∈
      [(("0" : String), ("1" : String)), ("1", "2"), ("2", "3"),
        ("3", "4"), ("4", "5")] := hpair
  have hplen : ∀ pr ∈ [(("0" : String), ("1" : String)), ("1", "2"), ("2", "3"),
      ("3", "4"), ("4", "5")], (pr.1.length = 1 ∧ pr.2.length = 1) := by decide
  have hdec : ∀ (p q s t : String), p.length = 1 → q.length = 1 →
      p ++ s = q ++ t → p = q ∧ s = t := by
    intro p q s t hp hq h
    exact string_append_inj (by rw [hp, hq]) h
  obtain ⟨hlow, hup⟩ := hplen _ hpair'
  constructor
  · intro h
    exact interFloor_adjacency d0 d1 d2 d3 d4 d5 lower upper sfx d hpair hsfx h.1 h.2
  · intro hnot hmem
    obtain ⟨pr, hpr, hm⟩ := mem_buildInterFloorEdges.mp hmem
    obtain ⟨p₁, p₂⟩ := pr
    have hpr' : (p₁, p₂) ∈ [(("0" : String), ("1" : String)), ("1", "2"),
        ("2", "3"), ("3", "4"), ("4", "5")] := hpr
    obtain ⟨hp₁, hp₂⟩ := hplen _ hpr'
    rcases hm with hm | hm <;>
      · obtain ⟨s, hsmem, hh1, hh2, heq⟩ := mem_interEdgesFor.mp hm
        have hsrc : lower ++ sfx = p₁ ++ s := congrArg NormalizedEdge.source heq
        have htgt : upper ++ sfx = p₂ ++ s := congrArg NormalizedEdge.target heq
        obtain ⟨hq1, hst⟩ := hdec lower p₁ sfx s hlow hp₁ hsrc
        obtain ⟨hq2, _⟩ := hdec upper p₂ sfx s hup hp₂ htgt
        apply hnot
        constructor
        · rw [hq1, hst]
          exact hh1
        · rw [hq2, hst]
          exact hh2

theorem C6_witness :
    ("0", "1") ∈ adjacentPairs (sortStr
      ((mkFloors wFD0 wFD1 emptyFD emptyFD emptyFD emptyFD).map (·.pfx))) ∧
    "K041" ∈ STAIRWELL_SUFFIXES ∧
    jhas wGS.nodeMap ("0" ++ "K041") = true ∧
    jhas wGS.nodeMap ("1" ++ "K041") = true ∧
    jget2 wGS.adjacency ("0" ++ "K041") ("1" ++ "K041") =
      some STAIR_FLOOR_CHANGE_DISTANCE ∧
    jget2 wGS.adjacency ("1" ++ "K041") ("0" ++ "K041") =
      some STAIR_FLOOR_CHANGE_DISTANCE :=
  ⟨by decide, by decide, by decide, by decide,
    ((C6_inter_floor_edge_synthesis wFD0 wFD1 emptyFD emptyFD emptyFD emptyFD
        "0" "1" "K041" STAIR_FLOOR_CHANGE_DISTANCE (by decide)
        (Or.inl ⟨by decide, rfl⟩)).1 ⟨by decide, by decide⟩).1,
    ((C6_inter_floor_edge_synthesis wFD0 wFD1 emptyFD emptyFD emptyFD emptyFD
        "0" "1" "K041" STAIR_FLOOR_CHANGE_DISTANCE (by decide)
        (Or.inl ⟨by decide, rfl⟩)).1 ⟨by decide, by decide⟩).2⟩

/-- The C7 counterexample data: two intra-floor edges over the same ordered
pair — the first bidirectional with distance 5, the second one-way with
distance 7 overwriting only the forward direction. -/
def cexFD7 : FloorData :=
  ⟨[{ id := "0A" }, { id := "0B" }],
   [{ source := "0A", target := "0B", distance_m := some 5 },
    { source := "0A", target := "0B", bidirectional := some false,
      distance_m := some 7 }]⟩

def cexGS7 : GraphState :=
  initializeGraph (mkFloors cexFD7 emptyFD emptyFD emptyFD emptyFD emptyFD)

/-- C7 counterexample: the bidirectional input edge `0A → 0B` (distance 5) has
both endpoints registered, yet the assembled adjacency does NOT hold both
directions with the same distance: a later one-way input edge over the same
ordered pair overwrites only the forward entry, leaving `0A→0B = 7` against
`0B→0A = 5`. -/
theorem C7_counterexample :
    (∃ fi ∈ mkFloors cexFD7 emptyFD emptyFD emptyFD emptyFD emptyFD,
      ({ source := "0A", target := "0B", bidirectional := true, distance := 5 } :
        NormalizedEdge) ∈ normalizeEdges fi) ∧
    jhas cexGS7.nodeMap "0A" = true ∧ jhas cexGS7.nodeMap "0B" = true ∧
    jget2 cexGS7.adjacency "0A" "0B" = some 7 ∧
    jget2 cexGS7.adjacency "0B" "0A" = some 5 ∧
    jget2 cexGS7.adjacency "0A" "0B" ≠ jget2 cexGS7.adjacency "0B" "0A" := by
  decide

/-- C7 (amended): (1) every entry of the assembled adjacency has both
endpoints registered in the node table — an input edge with a missing endpoint
is never materialized, and the synthetic inter-floor edges only connect
existing nodes; (2) applying a bidirectional edge whose endpoints are both
present writes BOTH directions with the edge's distance at that moment.  The
original claim's stronger conclusion — that the final adjacency always holds
both directions of a bidirectional input edge with equal distance — fails when
a later input edge over the same ordered pair overwrites one direction (see
the counterexample). -/
theorem C7_amended_edge_materialization (d0 d1 d2 d3 d4 d5 : FloorData) :
    (∀ a b w,
      jget2 (initializeGraph (mkFloors d0 d1 d2 d3 d4 d5)).adjacency a b =
        some w →
      jhas (initializeGraph (mkFloors d0 d1 d2 d3 d4 d5)).nodeMap a = true ∧
      jhas (initializeGraph (mkFloors d0 d1 d2 d3 d4 d5)).nodeMap b = true) ∧
    (∀ (adj : JMap String (JMap String ℤ)) (e : NormalizedEdge),
      jhas adj e.source = true → jhas adj e.target = true →
      e.bidirectional = true →
      jget2 (applyEdgeChecked adj e) e.source e.target = some e.distance ∧
      jget2 (applyEdgeChecked adj e) e.target e.source = some e.distance) := by
  constructor
  · exact fun a b w h => initializeGraph_reg _ a b w h
  · intro adj e hs ht hb
    unfold applyEdgeChecked
    rw [if_pos ⟨hs, ht⟩]
    unfold applyEdgeUnchecked
    rw [if_pos hb]
    constructor
    · rw [jget2_insertAdj]
      by_cases hc : e.target = e.source ∧ e.source = e.target ∧
          jhas (insertAdj adj e.source e.target e.distance) e.target = true
      · rw [if_pos hc]
      · rw [if_neg hc, jget2_insertAdj, if_pos ⟨rfl, rfl, hs⟩]
    · rw [jget2_insertAdj,
        if_pos ⟨rfl, rfl, by rw [jhas_insertAdj]; exact ht⟩]

theorem C7_witness :
    (jhas cexGS7.nodeMap "0A" = true ∧ jhas cexGS7.nodeMap "0B" = true) ∧
    (jget2 (applyEdgeChecked
        ([("0A", ([] : JMap String ℤ)), ("0B", [])] : JMap String (JMap String ℤ))
        ⟨"0A", "0B", true, 5⟩) "0A" "0B" = some 5 ∧
     jget2 (applyEdgeChecked
        ([("0A", ([] : JMap String ℤ)), ("0B", [])] : JMap String (JMap String ℤ))
        ⟨"0A", "0B", true, 5⟩) "0B" "0A" = some 5) :=
  ⟨(C7_amended_edge_materialization cexFD7 emptyFD emptyFD emptyFD emptyFD
      emptyFD).1 "0A" "0B" 7 (by decide),
   (C7_amended_edge_materialization cexFD7 emptyFD emptyFD emptyFD emptyFD
      emptyFD).2
      ([("0A", ([] : JMap String ℤ)), ("0B", [])] : JMap String (JMap String ℤ))
      ⟨"0A", "0B", true, 5⟩ (by decide) (by decide) (by decide)⟩
